import Mathlib

/-!
Verification of the NASM source-line parser (`asm/parser.c`) and the
instruction-table generator (`insns.pl`) against their natural-language
specification.  The relevant C functions and Perl subroutines are shallowly
embedded as executable Lean definitions; machine integers are modelled as
`Int`/`Nat` with explicit truncation, strings as `List Char`.
-/

set_option maxRecDepth 4000

namespace Nasm

/-! ## Operand-flag constants

Modelled from the spec: the operand-type bitmask constants (`UNITY`,
`SBYTEWORD`, ..., `MEM_OFFS`, `IP_REL`, ...) come from the external
`opflags.h` header, which is not part of the parser source.  The spec (§3,
§9) describes them as named single-bit constants in a 64-bit mask; only
their distinctness matters to the parser logic verified here, so we assign
them distinct powers of two. -/

def UNITY      : Nat := 2^40
def SBYTEWORD  : Nat := 2^41
def SBYTEDWORD : Nat := 2^42
def SDWORD     : Nat := 2^43
def UDWORD     : Nat := 2^44
def STRICT     : Nat := 2^45
def MEMORY_ANY : Nat := 2^20
def MEM_OFFS   : Nat := 2^21
def IP_REL     : Nat := 2^22
def XMEM       : Nat := 2^23
def YMEM       : Nat := 2^24
def ZMEM       : Nat := 2^25

/-- Modelled from the spec: effective-address flag bits (`EAF_*`) from the
external `nasm.h` header; distinct single bits. -/
def EAF_BYTEOFFS : Nat := 1
def EAF_WORDOFFS : Nat := 2
def EAF_TIMESTWO : Nat := 4
def EAF_REL      : Nat := 8
def EAF_ABS      : Nat := 16
def EAF_FSGS     : Nat := 32

/-- Modelled from the spec: decorator-flag bits (broadcast, SAE, embedded
rounding, zeroing, opmask) from the external header; distinct bits. -/
def BRDCAST_MASK : Nat := 2^10
def ER           : Nat := 2^11
def SAE          : Nat := 2^12
def Z_MASK       : Nat := 2^13

/-- `NO_SEG` sentinel for segment fields (external constant; an invalid
segment identifier distinct from every real segment). -/
def NO_SEG : Int := -1

/-! ## Two's-complement truncation

`sext w x` is the value of the low `w` bits of the integer `x` read as a
`w`-bit two's-complement number: the C cast `(intW_t)x`. -/

def sext (w : Nat) (x : Int) : Int :=
  (x + 2^(w-1)) % (2^w : Nat) - 2^(w-1)

/-! ## `imm_flags` (parser.c)

```c
static opflags_t imm_flags(int64_t n, opflags_t flags)
{
    if (n == 1)
        flags |= UNITY;
    if (optimizing.level < 0 || (flags & STRICT))
        return flags;
    if ((int32_t)n == (int8_t)n)  flags |= SBYTEDWORD;
    if ((int16_t)n == (int8_t)n)  flags |= SBYTEWORD;
    if ((uint64_t)n == (uint32_t)n) flags |= UDWORD;
    if ((int64_t)n == (int32_t)n) flags |= SDWORD;
    return flags;
}
```
`n` is the value of the C `int64_t` argument; the global `optimizing.level`
is passed explicitly.  A C cast-and-compare `(intW_t)n == (intV_t)n`
becomes `sext W n = sext V n`; the unsigned compare `(uint64_t)n ==
(uint32_t)n` becomes equality of the nonnegative remainders. -/

def immFlags (optLevel : Int) (n : Int) (flags : Nat) : Nat :=
  let f1 := if n = 1 then flags ||| UNITY else flags
  if optLevel < 0 ∨ f1 &&& STRICT ≠ 0 then f1
  else
    let f2 := if sext 32 n = sext 8 n then f1 ||| SBYTEDWORD else f1
    let f3 := if sext 16 n = sext 8 n then f2 ||| SBYTEWORD else f2
    let f4 := if n % (2^64 : Nat) = n % (2^32 : Nat) then f3 ||| UDWORD else f3
    let f5 := if n = sext 32 n then f4 ||| SDWORD else f4
    f5

/-! ## `add_prefix` (parser.c), slot-update logic

```c
    if (result->prefixes[slot]) {
        if (result->prefixes[slot] == tokval.t_integer)
            nasm_warn(WARN_OTHER, "instruction has redundant prefixes");
        else
            nasm_nonfatal("instruction has conflicting prefixes");
    }
    result->prefixes[slot] = tokval.t_integer;
```
The prefix-slot array maps slot kinds to prefix enum values; `P_none == 0`
is asserted in the source, so a zero entry means "empty".  We model the
array as a function `Nat → Nat` and the diagnostic outcome as `PfxDiag`. -/

inductive PfxDiag where
  | none       : PfxDiag
  | redundant  : PfxDiag
  | conflicting : PfxDiag
deriving DecidableEq, Repr

def addPfx (slots : Nat → Nat) (slot val : Nat) : (Nat → Nat) × PfxDiag :=
  let d :=
    if slots slot ≠ 0 then
      if slots slot = val then PfxDiag.redundant else PfxDiag.conflicting
    else PfxDiag.none
  (Function.update slots slot val, d)

/-! ## Bit-lemma toolkit -/

theorem and_pow_ne_zero (x k : Nat) : x &&& 2^k ≠ 0 ↔ x.testBit k := by
  rw [Nat.and_two_pow]
  rcases h : x.testBit k <;> simp [h]

theorem testBit_lor_pow_ne (x : Nat) {a b : Nat} (h : a ≠ b) :
    (x ||| 2^a).testBit b = x.testBit b := by
  simp [Nat.testBit_lor, Nat.testBit_two_pow, h]

theorem lor_pow_and_pow_ne (x : Nat) {a b : Nat} (h : a ≠ b) :
    ((x ||| 2^a) &&& 2^b ≠ 0) ↔ (x &&& 2^b ≠ 0) := by
  rw [and_pow_ne_zero, and_pow_ne_zero, testBit_lor_pow_ne x h]

theorem lor_pow_and_pow_self (x : Nat) (a : Nat) :
    (x ||| 2^a) &&& 2^a ≠ 0 := by
  rw [and_pow_ne_zero]
  simp [Nat.testBit_lor, Nat.testBit_two_pow]

theorem lor_pow_and_pow_eq_zero (x : Nat) {a b : Nat} (h : a ≠ b) :
    ((x ||| 2^a) &&& 2^b = 0) ↔ (x &&& 2^b = 0) := by
  rw [← not_iff_not]
  exact lor_pow_and_pow_ne x h

theorem and_lor_distrib_right (a b c : Nat) :
    (a ||| b) &&& c = (a &&& c) ||| (b &&& c) := by
  apply Nat.eq_of_testBit_eq
  intro i
  simp [Bool.and_or_distrib_right]

theorem lor_eq_zero (a b : Nat) : a ||| b = 0 ↔ a = 0 ∧ b = 0 := by
  constructor
  · intro h
    have ht : ∀ i, a.testBit i = false ∧ b.testBit i = false := by
      intro i
      have := congrArg (fun x => Nat.testBit x i) h
      simpa using this
    exact ⟨Nat.eq_of_testBit_eq fun i => by simp [(ht i).1],
           Nat.eq_of_testBit_eq fun i => by simp [(ht i).2]⟩
  · rintro ⟨rfl, rfl⟩
    rfl

/-- C9: for every prefix token consumed by `add_prefix`, an empty slot
stores the value silently; a slot holding the same value produces the
"redundant prefixes" warning; a slot holding a different value produces the
"conflicting prefixes" error — so each slot accepts at most one value
without a diagnostic. -/
theorem add_pfx_spec (slots : Nat → Nat) (slot val : Nat) :
    ((addPfx slots slot val).1 slot = val)
  ∧ ((addPfx slots slot val).2 = PfxDiag.none ↔ slots slot = 0)
  ∧ ((addPfx slots slot val).2 = PfxDiag.redundant ↔
      (slots slot ≠ 0 ∧ slots slot = val))
  ∧ ((addPfx slots slot val).2 = PfxDiag.conflicting ↔
      (slots slot ≠ 0 ∧ slots slot ≠ val)) := by
  unfold addPfx
  refine ⟨by simp, ?_, ?_, ?_⟩ <;> split_ifs <;> simp_all

theorem ite_lor_and_pow (c : Prop) [Decidable c] (f a b : Nat) :
    ((if c then f ||| 2^a else f) &&& 2^b ≠ 0) ↔
      ((c ∧ a = b) ∨ f &&& 2^b ≠ 0) := by
  split_ifs with h
  · by_cases hab : a = b
    · subst hab
      simp [lor_pow_and_pow_self, h]
    · rw [lor_pow_and_pow_ne f hab]
      tauto
  · tauto

/-- C10: for every 64-bit immediate `n`, `imm_flags` adds `UNITY` exactly
when `n == 1`, regardless of `STRICT` or a negative optimization level; it
adds each of `SBYTEDWORD`, `SBYTEWORD`, `UDWORD`, `SDWORD` exactly when the
corresponding width-truncation equation holds, and only when the
optimization level is non-negative and `STRICT` is absent. -/
theorem imm_flags_spec (optLevel n : Int) (flags : Nat)
    (hlo : -(2^63) ≤ n) (hhi : n < 2^63) :
    ((immFlags optLevel n flags) &&& UNITY ≠ 0 ↔ (n = 1 ∨ flags &&& UNITY ≠ 0))
  ∧ ((immFlags optLevel n flags) &&& SBYTEDWORD ≠ 0 ↔
      (flags &&& SBYTEDWORD ≠ 0 ∨
        (0 ≤ optLevel ∧ flags &&& STRICT = 0 ∧ sext 32 n = sext 8 n)))
  ∧ ((immFlags optLevel n flags) &&& SBYTEWORD ≠ 0 ↔
      (flags &&& SBYTEWORD ≠ 0 ∨
        (0 ≤ optLevel ∧ flags &&& STRICT = 0 ∧ sext 16 n = sext 8 n)))
  ∧ ((immFlags optLevel n flags) &&& UDWORD ≠ 0 ↔
      (flags &&& UDWORD ≠ 0 ∨
        (0 ≤ optLevel ∧ flags &&& STRICT = 0 ∧
          n % ((2^64 : Nat) : Int) = n % ((2^32 : Nat) : Int))))
  ∧ ((immFlags optLevel n flags) &&& SDWORD ≠ 0 ↔
      (flags &&& SDWORD ≠ 0 ∨
        (0 ≤ optLevel ∧ flags &&& STRICT = 0 ∧ n = sext 32 n))) := by
  have hstrict : ((if n = 1 then flags ||| 2^40 else flags) &&& 2^45 ≠ 0) ↔
      (flags &&& 2^45 ≠ 0) := by
    rw [ite_lor_and_pow]
    simp
  simp only [immFlags, UNITY, SBYTEWORD, SBYTEDWORD, SDWORD, UDWORD, STRICT]
  by_cases hG :
      optLevel < 0 ∨ (if n = 1 then flags ||| 2^40 else flags) &&& 2^45 ≠ 0
  · have hG' : optLevel < 0 ∨ flags &&& 2^45 ≠ 0 := hG.imp id hstrict.mp
    simp only [if_pos hG]
    refine ⟨?_, ?_, ?_, ?_, ?_⟩
    · rw [ite_lor_and_pow]
      simp
    all_goals
      rw [ite_lor_and_pow]
      constructor
      · rintro (⟨_, hab⟩ | h)
        · exact absurd hab (by norm_num)
        · exact Or.inl h
      · rintro (h | ⟨h1, h2, _⟩)
        · exact Or.inr h
        · rcases hG' with h' | h'
          · exact absurd h1 (not_le.mpr h')
          · exact absurd h2 h'
  · push_neg at hG
    obtain ⟨hge, hG2⟩ := hG
    have hs0 : flags &&& 2^45 = 0 := by
      by_contra hc
      exact (hstrict.mpr hc) hG2
    have hneg : ¬(optLevel < 0 ∨
        (if n = 1 then flags ||| 2^40 else flags) &&& 2^45 ≠ 0) := by
      push_neg
      exact ⟨hge, hG2⟩
    simp only [if_neg hneg]
    refine ⟨?_, ?_, ?_, ?_, ?_⟩ <;>
      · simp only [ite_lor_and_pow]
        simp [hge, hs0] <;> tauto

/-! ## The operand record and the memory-reference resolver

`struct operand` fields relevant to `parse_mref`, `mref_set_optype` and the
MIB combination step of `parse_line`.  `init_operand` zeroes the record and
sets `basereg = indexreg = -1`, `segment = wrt = NO_SEG`; these are the
field defaults. -/

/-- `OPFLAG_*` bits (modelled from the spec: external header constants;
distinct bits). -/
def OPFLAG_UNKNOWN  : Nat := 4
def OPFLAG_RELATIVE : Nat := 8

/-- Expression-vector term types (modelled from the spec §6: `EXPR_SIMPLE`,
`EXPR_UNKNOWN`, register classes `EXPR_REG_START..EXPR_REG_END`, `EXPR_WRT`,
`EXPR_SEGBASE + N`; external header constants, ordered as in the source). -/
def EXPR_REG_START : Int := 1
def EXPR_REG_END   : Int := 124
def EXPR_UNKNOWN   : Int := 125
def EXPR_SIMPLE    : Int := 126
def EXPR_WRT       : Int := 127
def EXPR_SEGBASE   : Int := 128

inductive EAH where
  | NOHINT | MAKEBASE | NOTBASE
deriving DecidableEq, Repr

structure Operand where
  type      : Nat := 0
  opflags   : Nat := 0
  basereg   : Int := -1
  indexreg  : Int := -1
  scale     : Int := 0
  offset    : Int := 0
  segment   : Int := NO_SEG
  wrt       : Int := NO_SEG
  eaflags   : Nat := 0
  decoflags : Nat := 0
  hintbase  : Int := 0
  hinttype  : EAH := EAH.NOHINT
deriving DecidableEq, Repr

def initOperand : Operand := {}

/-- One `{type, value}` term of the evaluator's expression vector. -/
structure ExprTerm where
  type  : Int
  value : Int
deriving DecidableEq, Repr

/-- The diagnostics `parse_mref` can emit before returning `-1` (plus the
non-failing path). -/
inductive MrefErr where
  | twoIndexRegisters
  | impossibleRegister
  | tooManyRegisters
  | multipleBaseSegments
  | impossibleSegBaseMultiplier
  | badSubexpressionType
deriving DecidableEq, Repr

/-- The walk of `parse_mref` (parser.c).  `isGPR r` models
`is_class(REG_GPR, nasm_reg_flags[r])` and `locSeg` models
`location.segment` (both external).  Locals `b i s o` mirror the C locals;
`op` carries the fields the C code writes through the pointer during the
walk (`opflags`, `wrt`, `segment`).  The C loop runs until a zero
terminator type; an error reports the diagnostic and returns `-1` without
committing `b i s o`. -/
def parse_mref_walk (isGPR : Int → Bool) (locSeg : Int) :
    List ExprTerm → Operand → Int → Int → Int → Int →
    (Operand × Int × Int × Int × Int) ⊕ (Operand × MrefErr)
  | [], op, b, i, s, o => Sum.inl (op, b, i, s, o)
  | e :: es, op, b, i, s, o =>
    if e.type = 0 then Sum.inl (op, b, i, s, o)
    else if e.type ≤ EXPR_REG_END then
      if isGPR e.type ∧ e.value = 1 ∧ b = -1 then
        parse_mref_walk isGPR locSeg es op e.type i s o
      else if i = -1 then
        parse_mref_walk isGPR locSeg es op b e.type e.value o
      else if b = -1 then Sum.inr (op, MrefErr.twoIndexRegisters)
      else if ¬ isGPR e.type then Sum.inr (op, MrefErr.impossibleRegister)
      else Sum.inr (op, MrefErr.tooManyRegisters)
    else if e.type = EXPR_UNKNOWN then
      parse_mref_walk isGPR locSeg es
        { op with opflags := op.opflags ||| OPFLAG_UNKNOWN } b i s o
    else if e.type = EXPR_SIMPLE then
      parse_mref_walk isGPR locSeg es op b i s (o + e.value)
    else if e.type = EXPR_WRT then
      parse_mref_walk isGPR locSeg es { op with wrt := e.value } b i s o
    else if EXPR_SEGBASE ≤ e.type then
      if e.value = 1 then
        if op.segment ≠ NO_SEG then
          Sum.inr (op, MrefErr.multipleBaseSegments)
        else
          parse_mref_walk isGPR locSeg es
            { op with segment := e.type - EXPR_SEGBASE } b i s o
      else if e.value = -1 ∧ e.type = locSeg + EXPR_SEGBASE ∧
          op.opflags &&& OPFLAG_RELATIVE = 0 then
        parse_mref_walk isGPR locSeg es
          { op with opflags := op.opflags ||| OPFLAG_RELATIVE } b i s o
      else Sum.inr (op, MrefErr.impossibleSegBaseMultiplier)
    else Sum.inr (op, MrefErr.badSubexpressionType)

/-- `parse_mref` proper: load the locals from the operand, walk the vector,
commit the locals on success.  The second component is `none` on the `0`
return and `some err` on a `-1` return. -/
def parse_mref (isGPR : Int → Bool) (locSeg : Int) (op : Operand)
    (es : List ExprTerm) : Operand × Option MrefErr :=
  match parse_mref_walk isGPR locSeg es op
      op.basereg op.indexreg op.scale op.offset with
  | Sum.inl (op', b, i, s, o) =>
    ({ op' with basereg := b, indexreg := i, scale := s, offset := o }, none)
  | Sum.inr (op', err) => (op', some err)

/-- `mref_set_optype` (parser.c).  `globalbits`/`globalrel` are the global
mode and REL default; `isXMM`/`isYMM`/`isZMM` model the
`is_class(_MMREG, nasm_reg_flags[i])` tests on the external register
table. -/
def mref_set_optype (globalbits : Nat) (globalrel : Bool)
    (isXMM isYMM isZMM : Int → Bool) (op : Operand) : Operand :=
  let b := op.basereg
  let i := op.indexreg
  let s := op.scale
  let op := { op with type := op.type ||| MEMORY_ANY }
  let op :=
    if b = -1 ∧ (i = -1 ∨ s = 0) then
      let is_rel := globalbits = 64 ∧ op.eaflags &&& EAF_ABS = 0 ∧
        ((globalrel ∧ op.eaflags &&& EAF_FSGS = 0) ∨
          op.eaflags &&& EAF_REL ≠ 0)
      { op with type := op.type ||| (if is_rel then IP_REL else MEM_OFFS) }
    else op
  if i ≠ -1 then
    if isXMM i then { op with type := op.type ||| XMEM }
    else if isYMM i then { op with type := op.type ||| YMEM }
    else if isZMM i then { op with type := op.type ||| ZMEM }
    else op
  else op

/-- The MIB combination step of `parse_line` (parser.c): after both
sub-expressions of `[expr1, expr2]` have been resolved by `parse_mref` into
`op` and `o2`, a lone base register of `o2` is reinterpreted as the sole
index with scale 1; then any remaining base, any offset, segment or WRT in
`o2`, or an index already present in `op`, is the "invalid mib expression"
error (`goto fail`, modelled as `none`); otherwise `o2`'s index and scale
are installed into `op` and the hint fields are set. -/
def mib_combine (op o2 : Operand) : Option Operand :=
  let o2 :=
    if o2.basereg ≠ -1 ∧ o2.indexreg = -1 then
      { o2 with indexreg := o2.basereg, scale := 1, basereg := -1 }
    else o2
  if op.indexreg ≠ -1 ∨ o2.basereg ≠ -1 ∨ o2.offset ≠ 0 ∨
      o2.segment ≠ NO_SEG ∨ o2.wrt ≠ NO_SEG then
    none
  else
    let op := { op with indexreg := o2.indexreg, scale := o2.scale }
    let op :=
      if op.basereg ≠ -1 then
        { op with hintbase := op.basereg, hinttype := EAH.MAKEBASE }
      else if op.indexreg ≠ -1 then
        { op with hintbase := op.indexreg, hinttype := EAH.NOTBASE }
      else
        { op with hintbase := -1, hinttype := EAH.NOHINT }
    some op

/-! ### Register-assignment invariants of `parse_mref` (C4) -/

/-- A term the walk treats as a register: nonzero type within the register
range (`e->type <= EXPR_REG_END` under the loop's nonzero guard). -/
def isRegTerm (e : ExprTerm) : Prop :=
  e.type ≠ 0 ∧ e.type ≤ EXPR_REG_END

instance (e : ExprTerm) : Decidable (isRegTerm e) := by
  unfold isRegTerm
  infer_instance

/-- The register terms the walk actually visits: everything before a zero
terminator whose type is in the register range. -/
def regTermsOf (es : List ExprTerm) : List ExprTerm :=
  (es.takeWhile (fun e => e.type ≠ 0)).filter
    (fun e => decide (e.type ≤ EXPR_REG_END))

theorem regTermsOf_nil : regTermsOf [] = [] := rfl

theorem regTermsOf_cons_zero {e : ExprTerm} (es : List ExprTerm)
    (h : e.type = 0) : regTermsOf (e :: es) = [] := by
  simp [regTermsOf, h]

theorem regTermsOf_cons_reg {e : ExprTerm} (es : List ExprTerm)
    (h0 : e.type ≠ 0) (hr : e.type ≤ EXPR_REG_END) :
    regTermsOf (e :: es) = e :: regTermsOf es := by
  simp [regTermsOf, h0, hr]

theorem regTermsOf_cons_other {e : ExprTerm} (es : List ExprTerm)
    (h0 : e.type ≠ 0) (hr : ¬ e.type ≤ EXPR_REG_END) :
    regTermsOf (e :: es) = regTermsOf es := by
  simp [regTermsOf, h0, hr]

/-- Number of occupied register slots (`-1` = free). -/
def slotsFilled (b i : Int) : Nat :=
  (if b = -1 then 0 else 1) + (if i = -1 then 0 else 1)

theorem slotsFilled_base_fill (t i : Int) (ht : t ≠ -1) :
    slotsFilled t i = slotsFilled (-1) i + 1 := by
  unfold slotsFilled
  rw [if_neg ht]
  split_ifs <;> omega

theorem slotsFilled_index_fill (b t : Int) (ht : t ≠ -1) :
    slotsFilled b t = slotsFilled b (-1) + 1 := by
  unfold slotsFilled
  rw [if_neg ht]
  split_ifs <;> omega

/-- Walk invariant: on a successful walk over well-formed terms, the
visited register terms fit in the free slots, every register term fills
exactly one slot, a newly filled base slot comes from a GPR term with
coefficient 1, and a newly filled index slot records some register term's
type and coefficient as index and scale. -/
theorem walk_success_inv (isGPR : Int → Bool) (locSeg : Int) :
    ∀ (es : List ExprTerm) (op : Operand) (b i s o : Int)
      (op' : Operand) (b' i' s' o' : Int),
      (∀ e ∈ es, 0 ≤ e.type) →
      parse_mref_walk isGPR locSeg es op b i s o =
        Sum.inl (op', b', i', s', o') →
      ((regTermsOf es).length + slotsFilled b i ≤ 2
        ∧ slotsFilled b' i' = slotsFilled b i + (regTermsOf es).length
        ∧ (b' = b ∨ (b = -1 ∧ ∃ e ∈ regTermsOf es,
            isGPR e.type ∧ e.value = 1 ∧ b' = e.type))
        ∧ ((i' = i ∧ s' = s) ∨ (i = -1 ∧ ∃ e ∈ regTermsOf es,
            i' = e.type ∧ s' = e.value))) := by
  intro es
  induction es with
  | nil =>
    intro op b i s o op' b' i' s' o' hwf h
    simp only [parse_mref_walk] at h
    obtain ⟨rfl, rfl, rfl, rfl, rfl⟩ :
        op' = op ∧ b' = b ∧ i' = i ∧ s' = s ∧ o' = o := by
      cases h
      exact ⟨rfl, rfl, rfl, rfl, rfl⟩
    refine ⟨?_, by simp [regTermsOf_nil], Or.inl rfl, Or.inl ⟨rfl, rfl⟩⟩
    simp only [regTermsOf_nil, List.length_nil, Nat.zero_add, slotsFilled]
    split_ifs <;> norm_num
  | cons e es ih =>
    intro op b i s o op' b' i' s' o' hwf h
    have hwf' : ∀ e' ∈ es, 0 ≤ e'.type := fun e' he' => hwf e' (by simp [he'])
    have hwfe : (0 : Int) ≤ e.type := hwf e (by simp)
    simp only [parse_mref_walk] at h
    by_cases h0 : e.type = 0
    · rw [if_pos h0] at h
      obtain ⟨rfl, rfl, rfl, rfl, rfl⟩ :
          op' = op ∧ b' = b ∧ i' = i ∧ s' = s ∧ o' = o := by
        cases h
        exact ⟨rfl, rfl, rfl, rfl, rfl⟩
      refine ⟨?_, by simp [regTermsOf_cons_zero es h0], Or.inl rfl,
        Or.inl ⟨rfl, rfl⟩⟩
      simp only [regTermsOf_cons_zero es h0, List.length_nil, Nat.zero_add,
        slotsFilled]
      split_ifs <;> norm_num
    · rw [if_neg h0] at h
      by_cases hreg : e.type ≤ EXPR_REG_END
      · -- register term
        have hne : e.type ≠ -1 := by
          intro hc
          rw [hc] at hwfe
          norm_num at hwfe
        rw [if_pos hreg] at h
        rw [regTermsOf_cons_reg es h0 hreg]
        by_cases hb : isGPR e.type ∧ e.value = 1 ∧ b = -1
        · rw [if_pos hb] at h
          obtain ⟨ih1, ih2, ih3, ih4⟩ :=
            ih op e.type i s o op' b' i' s' o' hwf' h
          obtain ⟨hgpr, hval, hbfree⟩ := hb
          subst hbfree
          rw [slotsFilled_base_fill e.type i hne] at ih1 ih2
          refine ⟨?_, ?_, ?_, ?_⟩
          · simp only [List.length_cons]
            omega
          · simp only [List.length_cons]
            omega
          · rcases ih3 with h3 | ⟨h3a, _⟩
            · exact Or.inr ⟨rfl, e, by simp, hgpr, hval, h3⟩
            · exact absurd h3a hne
          · rcases ih4 with h4 | ⟨h4a, e', he', h4⟩
            · exact Or.inl h4
            · exact Or.inr ⟨h4a, e', by simp [he'], h4⟩
        · rw [if_neg hb] at h
          by_cases hi : i = -1
          · rw [if_pos hi] at h
            obtain ⟨ih1, ih2, ih3, ih4⟩ :=
              ih op b e.type e.value o op' b' i' s' o' hwf' h
            subst hi
            rw [slotsFilled_index_fill b e.type hne] at ih1 ih2
            refine ⟨?_, ?_, ?_, ?_⟩
            · simp only [List.length_cons]
              omega
            · simp only [List.length_cons]
              omega
            · rcases ih3 with h3 | ⟨h3a, e', he', h3⟩
              · exact Or.inl h3
              · exact Or.inr ⟨h3a, e', by simp [he'], h3⟩
            · rcases ih4 with ⟨h4a, h4b⟩ | ⟨h4a, _⟩
              · exact Or.inr ⟨rfl, e, by simp, h4a, h4b⟩
              · exact absurd h4a hne
          · rw [if_neg hi] at h
            split_ifs at h <;> cases h
      · -- non-register term
        rw [if_neg hreg] at h
        rw [regTermsOf_cons_other es h0 hreg]
        have step :
            ∀ (op2 : Operand),
              parse_mref_walk isGPR locSeg es op2 b i s o =
                  Sum.inl (op', b', i', s', o') →
              ((regTermsOf es).length + slotsFilled b i ≤ 2
                ∧ slotsFilled b' i' = slotsFilled b i + (regTermsOf es).length
                ∧ (b' = b ∨ (b = -1 ∧ ∃ e' ∈ regTermsOf es,
                    isGPR e'.type ∧ e'.value = 1 ∧ b' = e'.type))
                ∧ ((i' = i ∧ s' = s) ∨ (i = -1 ∧ ∃ e' ∈ regTermsOf es,
                    i' = e'.type ∧ s' = e'.value))) := by
          intro op2 h2
          exact ih op2 b i s o op' b' i' s' o' hwf' h2
        by_cases hu : e.type = EXPR_UNKNOWN
        · rw [if_pos hu] at h
          exact step _ h
        · rw [if_neg hu] at h
          by_cases hsimp : e.type = EXPR_SIMPLE
          · rw [if_pos hsimp] at h
            obtain ⟨ih1, ih2, ih3, ih4⟩ :=
              ih op b i s (o + e.value) op' b' i' s' o' hwf' h
            exact ⟨ih1, ih2, ih3, ih4⟩
          · rw [if_neg hsimp] at h
            by_cases hwrt : e.type = EXPR_WRT
            · rw [if_pos hwrt] at h
              exact step _ h
            · rw [if_neg hwrt] at h
              by_cases hsb : EXPR_SEGBASE ≤ e.type
              · rw [if_pos hsb] at h
                by_cases hv1 : e.value = 1
                · rw [if_pos hv1] at h
                  by_cases hseg : op.segment ≠ NO_SEG
                  · rw [if_pos hseg] at h
                    cases h
                  · rw [if_neg hseg] at h
                    exact step _ h
                · rw [if_neg hv1] at h
                  by_cases hrel : e.value = -1 ∧
                      e.type = locSeg + EXPR_SEGBASE ∧
                      op.opflags &&& OPFLAG_RELATIVE = 0
                  · rw [if_pos hrel] at h
                    exact step _ h
                  · rw [if_neg hrel] at h
                    cases h
              · rw [if_neg hsb] at h
                cases h

/-- C4: for every expression vector walked by `parse_mref` (well-formed:
nonnegative term types), a GPR term with coefficient 1 takes the free base
slot, otherwise a register term takes the free index slot with its
coefficient as scale, and any further register term is a diagnosed error
("two index registers" when the base slot is free, "impossible register"
for a non-GPR, else "too many registers") returning `-1`; so on success at
most two register terms occur, base and index come from distinct terms,
and a filled base always stems from a GPR coefficient-1 term. -/
theorem parse_mref_spec (isGPR : Int → Bool) (locSeg : Int)
    (es : List ExprTerm) (hwf : ∀ e ∈ es, 0 ≤ e.type) :
    (∀ op', parse_mref isGPR locSeg initOperand es = (op', none) →
      ((regTermsOf es).length ≤ 2
        ∧ (op'.basereg ≠ -1 → ∃ e ∈ regTermsOf es,
            isGPR e.type ∧ e.value = 1 ∧ op'.basereg = e.type)
        ∧ (op'.indexreg ≠ -1 → ∃ e ∈ regTermsOf es,
            op'.indexreg = e.type ∧ op'.scale = e.value)
        ∧ (op'.basereg ≠ -1 ∧ op'.indexreg ≠ -1 →
            (regTermsOf es).length = 2)))
  ∧ (3 ≤ (regTermsOf es).length →
      (parse_mref isGPR locSeg initOperand es).2.isSome = true)
  ∧ (∀ (e : ExprTerm) (es' : List ExprTerm) (op : Operand) (b i s o : Int),
      isRegTerm e → ¬(isGPR e.type ∧ e.value = 1 ∧ b = -1) → i ≠ -1 →
      parse_mref_walk isGPR locSeg (e :: es') op b i s o =
        Sum.inr (op,
          if b = -1 then MrefErr.twoIndexRegisters
          else if ¬ (isGPR e.type : Bool) then MrefErr.impossibleRegister
          else MrefErr.tooManyRegisters)) := by
  refine ⟨?_, ?_, ?_⟩
  · intro op' h
    simp only [parse_mref] at h
    rcases hw : parse_mref_walk isGPR locSeg es initOperand
        initOperand.basereg initOperand.indexreg initOperand.scale
        initOperand.offset with ⟨op2, b', i', s', o'⟩ | ⟨op2, err⟩
    · rw [hw] at h
      obtain ⟨ih1, ih2, ih3, ih4⟩ := walk_success_inv isGPR locSeg es
        initOperand initOperand.basereg initOperand.indexreg
        initOperand.scale initOperand.offset op2 b' i' s' o' hwf hw
    -- initOperand has free slots
      have hb0 : initOperand.basereg = -1 := rfl
      have hi0 : initOperand.indexreg = -1 := rfl
      have hs0 : slotsFilled initOperand.basereg initOperand.indexreg = 0 := by
        rw [hb0, hi0]
        rfl
      simp only [Prod.mk.injEq] at h
      obtain ⟨h1, -⟩ := h
      subst h1
      refine ⟨by omega, ?_, ?_, ?_⟩
      · intro hb
        simp only at hb
        rcases ih3 with h3 | ⟨-, e, he, hg, hv, h3⟩
        · rw [hb0] at h3
          exact absurd h3 hb
        · exact ⟨e, he, hg, hv, h3⟩
      · intro hi
        simp only at hi
        rcases ih4 with ⟨h4, -⟩ | ⟨-, e, he, h4a, h4b⟩
        · rw [hi0] at h4
          exact absurd h4 hi
        · exact ⟨e, he, h4a, h4b⟩
      · rintro ⟨hb, hi⟩
        simp only at hb hi
        rw [hs0] at ih2
        have : slotsFilled b' i' = 2 := by
          unfold slotsFilled
          rw [if_neg hb, if_neg hi]
        omega
    · rw [hw] at h
      cases h
  · intro h3
    simp only [parse_mref]
    rcases hw : parse_mref_walk isGPR locSeg es initOperand
        initOperand.basereg initOperand.indexreg initOperand.scale
        initOperand.offset with ⟨op2, b', i', s', o'⟩ | ⟨op2, err⟩
    · obtain ⟨ih1, -⟩ := walk_success_inv isGPR locSeg es
        initOperand initOperand.basereg initOperand.indexreg
        initOperand.scale initOperand.offset op2 b' i' s' o' hwf hw
      omega
    · rfl
  · intro e es' op b i s o hre hnb hni
    have h0 : ¬ e.type = 0 := hre.1
    simp only [parse_mref_walk]
    rw [if_neg h0, if_pos hre.2, if_neg hnb, if_neg hni]
    split_ifs <;> rfl

/-- Witness for `parse_mref_spec`: the vector `3*1 + 7*2 + 5` (a GPR term
with coefficient 1, a second register with coefficient 2, a simple offset,
then the terminator) has two register terms and parses successfully. -/
theorem parse_mref_spec_witness :
    (regTermsOf [⟨3, 1⟩, ⟨7, 2⟩, ⟨126, 5⟩, ⟨0, 0⟩]).length ≤ 2 := by
  exact ((parse_mref_spec (fun t => decide (t = 3)) 0
      ([⟨3, 1⟩, ⟨7, 2⟩, ⟨126, 5⟩, ⟨0, 0⟩] : List ExprTerm) (by decide)).1
      { initOperand with
        basereg := 3, indexreg := 7, scale := 2, offset := 5 }
      (by decide)).1

/-! ### `evex_brerop` maintenance in `parse_line`'s operand loop (C3)

`parse_line` resets `evex_brerop = -1`, then each iteration of the
comma-separated operand loop ends with

```c
        if (op->decoflags & (BRDCAST_MASK | ER | SAE))
            result->evex_brerop = opnum;
```

Three kinds of iterations matter to this field: a normal operand completing
with accumulated decorator flags; a naked braced-constant operand, which
`continue`s past the check with zero decorator flags; and an `EXPR_RDSAE`
pseudo-operand, which ORs `SAE`/`ER` into the *previous* operand's
`decoflags`, decrements `opnum`, and then runs the check on that previous
operand.  We model a parse's iteration sequence as a list of such events
and the loop as a fold; the operand array is the list of final `decoflags`
values. -/

inductive OpEvent where
  | opnd  (deco : Nat)
  | brc
  | rdsae (flag : Nat)
deriving DecidableEq, Repr

/-- The `decoflags & (BRDCAST_MASK | ER | SAE)` test of the loop
epilogue. -/
def hasBr (d : Nat) : Bool := d &&& (BRDCAST_MASK ||| ER ||| SAE) ≠ 0

/-- OR a flag into the last element: the RDSAE merge (`op--`, then
`op->decoflags |= SAE`/`ER`). -/
def updLast : List Nat → Nat → List Nat
  | [], _ => []
  | [x], f => [x ||| f]
  | x :: y :: xs, f => x :: updLast (y :: xs) f

def breropStep (st : List Nat × Int) (ev : OpEvent) : List Nat × Int :=
  match ev with
  | OpEvent.opnd d =>
    let ops := st.1 ++ [d]
    (ops, if hasBr d then ((ops.length : Int) - 1) else st.2)
  | OpEvent.brc => (st.1 ++ [0], st.2)
  | OpEvent.rdsae f =>
    match st.1 with
    | [] => st
    | _ :: _ =>
      let ops := updLast st.1 f
      (ops, if hasBr (ops.getLastD 0) then ((ops.length : Int) - 1)
            else st.2)

/-- The operand loop: start from no operands and `evex_brerop = -1`. -/
def parse_line_brerop (evs : List OpEvent) : List Nat × Int :=
  evs.foldl breropStep ([], -1)

theorem updLast_length (f : Nat) :
    ∀ (l : List Nat), (updLast l f).length = l.length
  | [] => rfl
  | [_] => rfl
  | _ :: y :: xs => by
    simp only [updLast, List.length_cons, updLast_length f (y :: xs)]

theorem updLast_getD (f : Nat) :
    ∀ (l : List Nat) (k : Nat), k < l.length →
      (updLast l f).getD k 0 =
        if k = l.length - 1 then l.getD k 0 ||| f else l.getD k 0
  | [], k, hk => absurd hk (by simp)
  | [x], k, hk => by
    have hk0 : k = 0 := by
      simp only [List.length_cons, List.length_nil] at hk
      omega
    subst hk0
    rfl
  | x :: y :: xs, k, hk => by
    cases k with
    | zero =>
      have : ¬ (0 = (x :: y :: xs).length - 1) := by
        simp
      rw [if_neg this]
      rfl
    | succ k =>
      have hk' : k < (y :: xs).length := by
        simpa using hk
      have ih := updLast_getD f (y :: xs) k hk'
      simp only [updLast, List.getD_cons_succ, List.length_cons] at ih ⊢
      rw [ih]
      have : (k = xs.length + 1 - 1) ↔ (k + 1 = xs.length + 1 + 1 - 1) := by
        omega
      by_cases hke : k = xs.length + 1 - 1
      · rw [if_pos hke, if_pos (by omega)]
      · rw [if_neg hke, if_neg (by omega)]

theorem updLast_getLastD (f : Nat) :
    ∀ (l : List Nat) (d : Nat), l ≠ [] →
      (updLast l f).getLastD d = l.getLastD d ||| f
  | [], _, h => absurd rfl h
  | [_], _, _ => rfl
  | x :: y :: xs, d, _ => by
    simp only [updLast]
    rw [List.getLastD_cons, List.getLastD_cons]
    exact updLast_getLastD f (y :: xs) x (by simp)

theorem getLastD_eq_getD :
    ∀ (l : List Nat) (d : Nat), l ≠ [] →
      l.getLastD d = l.getD (l.length - 1) 0
  | [], _, h => absurd rfl h
  | [x], _, _ => rfl
  | x :: y :: ys, d, _ => by
    rw [List.getLastD_cons, getLastD_eq_getD (y :: ys) x (by simp)]
    have hlen : (x :: y :: ys).length - 1 = ((y :: ys).length - 1) + 1 := by
      simp
    rw [hlen, List.getD_cons_succ]

theorem getD_append_lt (l : List Nat) (x : Nat) :
    ∀ (k : Nat), k < l.length → (l ++ [x]).getD k 0 = l.getD k 0 := by
  induction l with
  | nil =>
    intro k hk
    exact absurd hk (by simp)
  | cons a as ih =>
    intro k hk
    cases k with
    | zero => rfl
    | succ k =>
      simp only [List.cons_append, List.getD_cons_succ]
      exact ih k (by simpa using hk)

theorem getD_append_len (l : List Nat) (x : Nat) :
    (l ++ [x]).getD l.length 0 = x := by
  induction l with
  | nil => rfl
  | cons a as ih =>
    simpa using ih

theorem hasBr_mono {d f : Nat} (h : hasBr d = true) :
    hasBr (d ||| f) = true := by
  simp only [hasBr, decide_eq_true_eq, ne_eq] at h ⊢
  rw [and_lor_distrib_right, lor_eq_zero]
  tauto

theorem forall_getD_iff_mem (l : List Nat) (P : Nat → Prop) :
    (∀ k, k < l.length → P (l.getD k 0)) ↔ (∀ d ∈ l, P d) := by
  induction l with
  | nil => simp
  | cons a as ih =>
    constructor
    · intro h d hd
      rcases List.mem_cons.mp hd with rfl | hm
      · exact h 0 (by simp)
      · exact (ih.mp fun k hk => by
          have := h (k + 1) (by simpa using hk)
          simpa using this) d hm
    · intro h k hk
      cases k with
      | zero => exact h a (by simp)
      | succ k =>
        simp only [List.getD_cons_succ]
        exact ih.mpr (fun d hd => h d (by simp [hd])) k (by simpa using hk)

/-- The loop invariant for C3: `evex_brerop = -1` iff no operand so far has
a broadcast/ER/SAE bit; otherwise it is a valid index of an operand that
does. -/
def BrInv (st : List Nat × Int) : Prop :=
  (st.2 = -1 ↔ ∀ k, k < st.1.length → hasBr (st.1.getD k 0) = false)
  ∧ (st.2 ≠ -1 → ∃ k : Nat, st.2 = (k : Int) ∧ k < st.1.length ∧
      hasBr (st.1.getD k 0) = true)

theorem brInv_step (st : List Nat × Int) (ev : OpEvent) (h : BrInv st) :
    BrInv (breropStep st ev) := by
  obtain ⟨ops, br⟩ := st
  obtain ⟨h1, h2⟩ := h
  dsimp only at h1 h2
  cases ev with
  | opnd d =>
    simp only [breropStep]
    by_cases hd : hasBr d = true
    · rw [if_pos hd]
      unfold BrInv
      dsimp only
      constructor
      · constructor
        · intro hc
          exfalso
          simp only [List.length_append, List.length_cons,
            List.length_nil] at hc
          omega
        · intro hall
          have hx := hall ops.length (by
            simp only [List.length_append, List.length_cons, List.length_nil]
            omega)
          rw [getD_append_len, hd] at hx
          cases hx
      · intro _
        refine ⟨ops.length, ?_, ?_, ?_⟩
        · simp only [List.length_append, List.length_cons, List.length_nil]
          omega
        · simp only [List.length_append, List.length_cons, List.length_nil]
          omega
        · rw [getD_append_len]
          exact hd
    · rw [if_neg hd]
      unfold BrInv
      dsimp only
      refine ⟨?_, ?_⟩
      · rw [h1]
        constructor
        · intro hall k hk
          simp only [List.length_append, List.length_cons,
            List.length_nil] at hk
          rcases Nat.lt_or_ge k ops.length with hlt | hge
          · rw [getD_append_lt ops d k hlt]
            exact hall k hlt
          · have hk0 : k = ops.length := by omega
            subst hk0
            rw [getD_append_len]
            simpa using hd
        · intro hall k hk
          have hx := hall k (by
            simp only [List.length_append, List.length_cons, List.length_nil]
            omega)
          rwa [getD_append_lt ops d k hk] at hx
      · intro hbr
        obtain ⟨k, hk1, hk2, hk3⟩ := h2 hbr
        refine ⟨k, hk1, by
          simp only [List.length_append, List.length_cons, List.length_nil]
          omega, ?_⟩
        rwa [getD_append_lt ops d k hk2]
  | brc =>
    simp only [breropStep]
    unfold BrInv
    dsimp only
    refine ⟨?_, ?_⟩
    · rw [h1]
      constructor
      · intro hall k hk
        simp only [List.length_append, List.length_cons,
          List.length_nil] at hk
        rcases Nat.lt_or_ge k ops.length with hlt | hge
        · rw [getD_append_lt ops 0 k hlt]
          exact hall k hlt
        · have hk0 : k = ops.length := by omega
          subst hk0
          rw [getD_append_len]
          decide
      · intro hall k hk
        have hx := hall k (by
          simp only [List.length_append, List.length_cons, List.length_nil]
          omega)
        rwa [getD_append_lt ops 0 k hk] at hx
    · intro hbr
      obtain ⟨k, hk1, hk2, hk3⟩ := h2 hbr
      refine ⟨k, hk1, by
        simp only [List.length_append, List.length_cons, List.length_nil]
        omega, ?_⟩
      rwa [getD_append_lt ops 0 k hk2]
  | rdsae f =>
    cases hops : ops with
    | nil =>
      subst hops
      simp only [breropStep]
      exact ⟨h1, h2⟩
    | cons a as =>
      subst hops
      simp only [breropStep]
      have hlen := updLast_length f (a :: as)
      have hanne : (updLast (a :: as) f) ≠ [] := by
        intro hc
        rw [hc] at hlen
        simp at hlen
      by_cases hch : hasBr ((updLast (a :: as) f).getLastD 0) = true
      · rw [if_pos hch]
        unfold BrInv
        dsimp only
        have hchD : hasBr
            ((updLast (a :: as) f).getD ((a :: as).length - 1) 0) = true := by
          rw [← hlen, ← getLastD_eq_getD _ 0 hanne]
          exact hch
        constructor
        · constructor
          · intro hc
            exfalso
            rw [hlen] at hc
            simp only [List.length_cons] at hc
            omega
          · intro hall
            have hklt : (a :: as).length - 1 <
                (updLast (a :: as) f).length := by
              rw [hlen]
              simp
            have hx := hall _ hklt
            rw [hchD] at hx
            cases hx
        · intro _
          refine ⟨(a :: as).length - 1, ?_, ?_, hchD⟩
          · rw [hlen]
            simp only [List.length_cons]
            omega
          · rw [hlen]
            simp
      · rw [if_neg hch]
        unfold BrInv
        dsimp only
        have hchD : hasBr
            ((a :: as).getD ((a :: as).length - 1) 0 ||| f) = false := by
          have e1 : (updLast (a :: as) f).getLastD 0 =
              (updLast (a :: as) f).getD
                ((updLast (a :: as) f).length - 1) 0 :=
            getLastD_eq_getD _ 0 hanne
          rw [e1, hlen] at hch
          rw [updLast_getD f (a :: as) ((a :: as).length - 1) (by simp)] at hch
          rw [if_pos rfl] at hch
          simpa using hch
        refine ⟨?_, ?_⟩
        · rw [h1]
          constructor
          · intro hall k hk
            rw [hlen] at hk
            rw [updLast_getD f (a :: as) k hk]
            by_cases hke : k = (a :: as).length - 1
            · rw [if_pos hke]
              rw [hke]
              exact hchD
            · rw [if_neg hke]
              exact hall k hk
          · intro hall k hk
            have hk' : k < (updLast (a :: as) f).length := by
              rw [hlen]
              exact hk
            have hx := hall k hk'
            rw [updLast_getD f (a :: as) k hk] at hx
            by_cases hke : k = (a :: as).length - 1
            · rw [if_pos hke] at hx
              by_contra hc
              have hb : hasBr ((a :: as).getD k 0) = true := by
                cases h' : hasBr ((a :: as).getD k 0) with
                | false => exact absurd h' hc
                | true => rfl
              rw [hasBr_mono hb] at hx
              cases hx
            · rwa [if_neg hke] at hx
        · intro hbr
          obtain ⟨k, hk1, hk2, hk3⟩ := h2 hbr
          refine ⟨k, hk1, by rw [hlen]; exact hk2, ?_⟩
          rw [updLast_getD f (a :: as) k hk2]
          by_cases hke : k = (a :: as).length - 1
          · rw [if_pos hke]
            exact hasBr_mono hk3
          · rw [if_neg hke]
            exact hk3

theorem brInv_fold (evs : List OpEvent) :
    ∀ (st : List Nat × Int), BrInv st →
      BrInv (evs.foldl breropStep st) := by
  induction evs with
  | nil =>
    intro st h
    exact h
  | cons e evs ih =>
    intro st h
    exact ih _ (brInv_step st e h)

/-- C3: after the operand loop, `evex_brerop == -1` iff no operand of the
record has a broadcast, SAE or embedded-rounding bit in its decorator
flags; when such an operand exists, `evex_brerop` is the index of an
operand carrying one of those bits. -/
theorem evex_brerop_spec (evs : List OpEvent) :
    ((parse_line_brerop evs).2 = -1 ↔
      ∀ d ∈ (parse_line_brerop evs).1,
        d &&& (BRDCAST_MASK ||| ER ||| SAE) = 0)
  ∧ ((parse_line_brerop evs).2 ≠ -1 →
      ∃ k : Nat, (parse_line_brerop evs).2 = (k : Int) ∧
        k < (parse_line_brerop evs).1.length ∧
        ((parse_line_brerop evs).1.getD k 0) &&&
          (BRDCAST_MASK ||| ER ||| SAE) ≠ 0) := by
  have hinv : BrInv (parse_line_brerop evs) := by
    apply brInv_fold
    constructor
    · simp
    · intro hc
      exact absurd rfl hc
  obtain ⟨h1, h2⟩ := hinv
  constructor
  · rw [h1]
    constructor
    · intro hall d hd
      have hx := (forall_getD_iff_mem _ (fun d => hasBr d = false)).mp
        hall d hd
      simpa [hasBr] using hx
    · intro hall
      apply (forall_getD_iff_mem _ (fun d => hasBr d = false)).mpr
      intro d hd
      simp [hasBr, hall d hd]
  · intro hbr
    obtain ⟨k, hk1, hk2, hk3⟩ := h2 hbr
    refine ⟨k, hk1, hk2, ?_⟩
    simpa [hasBr] using hk3

/-- Witness for `evex_brerop_spec`: two operands, the second carrying a
broadcast decorator — `evex_brerop` is not `-1`. -/
theorem evex_brerop_spec_witness :
    (parse_line_brerop [OpEvent.opnd 0, OpEvent.opnd BRDCAST_MASK]).2
      ≠ -1 := by
  intro hc
  have h := ((evex_brerop_spec
      [OpEvent.opnd 0, OpEvent.opnd BRDCAST_MASK]).1).mp hc
  exact absurd (h BRDCAST_MASK (by decide)) (by decide)

/-! ## Bytecode pool interning (insns.pl, C8)

```perl
@bytecode_list = sort { scalar(@$b) <=> scalar(@$a) } @bytecode_list;
@bytecode_array = ();
%bytecode_pos = ();
$bytecode_next = 0;
foreach $bl (@bytecode_list) {
    my $h = hexstr(@$bl);
    next if (defined($bytecode_pos{$h}));
    push(@bytecode_array, $bl);
    while ($h ne ...) {
        $bytecode_pos{$h} = $bytecode_next;
        $h = substr($h, 2);
        $bytecode_next++;
    }
}
```

`hexstr` is an injective encoding of a byte list and `substr($h, 2)` drops
one encoded byte, so we key the position hash by the byte list itself.  The
hash is modelled as an association list where the most recent assignment
shadows older ones; `$bytecode_next` always equals the total length of the
pushed sequences, i.e. the length of the flat array. -/

def posLookup (m : List (List Nat × Nat)) (k : List Nat) : Option Nat :=
  match m with
  | [] => none
  | (k', v) :: m' => if k' = k then some v else posLookup m' k

/-- The `while` loop: assign `$bytecode_next`, drop one byte, repeat. -/
def assignSuffixes : List (List Nat × Nat) → List Nat → Nat →
    List (List Nat × Nat)
  | m, [], _ => m
  | m, x :: t, next => assignSuffixes ((x :: t, next) :: m) t (next + 1)

/-- One `foreach` iteration of the interning loop. -/
def internStep (st : List Nat × List (List Nat × Nat)) (bl : List Nat) :
    List Nat × List (List Nat × Nat) :=
  if (posLookup st.2 bl).isSome then st
  else (st.1 ++ bl, assignSuffixes st.2 bl st.1.length)

/-- The whole interning pass: sort by descending length (Perl
`sort { scalar(@$b) <=> scalar(@$a) }`), then fold.  Returns the flat
array (concatenation of the pushed sequences) and the position map. -/
def internPool (ls : List (List Nat)) : List Nat × List (List Nat × Nat) :=
  (ls.insertionSort (fun a b => b.length ≤ a.length)).foldl
    internStep ([], [])

theorem drop_append_add (l1 l2 : List Nat) :
    ∀ (j : Nat), (l1 ++ l2).drop (l1.length + j) = l2.drop j := by
  induction l1 with
  | nil =>
    intro j
    simp
  | cons a as ih =>
    intro j
    simp only [List.cons_append, List.length_cons]
    have : as.length + 1 + j = (as.length + j) + 1 := by omega
    rw [this, List.drop_succ_cons, ih j]

theorem drop_append_of_le (l1 l2 : List Nat) :
    ∀ (p : Nat), p ≤ l1.length → (l1 ++ l2).drop p = l1.drop p ++ l2 := by
  induction l1 with
  | nil =>
    intro p hp
    simp at hp
    subst hp
    simp
  | cons a as ih =>
    intro p hp
    cases p with
    | zero => simp
    | succ p =>
      simp only [List.cons_append, List.drop_succ_cons]
      exact ih p (by simpa using hp)

theorem take_append_of_le (l1 l2 : List Nat) :
    ∀ (n : Nat), n ≤ l1.length → (l1 ++ l2).take n = l1.take n := by
  induction l1 with
  | nil =>
    intro n hn
    simp at hn
    subst hn
    simp
  | cons a as ih =>
    intro n hn
    cases n with
    | zero => simp
    | succ n =>
      simp only [List.cons_append, List.take_succ_cons]
      rw [ih n (by simpa using hn)]

/-- Lookup after `assignSuffixes` for a key that is no nonempty suffix of
`bl`: unchanged. -/
theorem lookup_assign_other :
    ∀ (bl : List Nat) (pos : List (List Nat × Nat)) (base : Nat)
      (k : List Nat), (∀ j, j < bl.length → bl.drop j ≠ k) →
      posLookup (assignSuffixes pos bl base) k = posLookup pos k := by
  intro bl
  induction bl with
  | nil =>
    intro pos base k _
    rfl
  | cons x t ih =>
    intro pos base k hk
    simp only [assignSuffixes]
    rw [ih ((x :: t, base) :: pos) (base + 1) k ?side]
    case side =>
      intro j hj
      have := hk (j + 1) (by simpa using hj)
      simpa using this
    simp only [posLookup]
    rw [if_neg]
    have := hk 0 (by simp)
    simpa using this

/-- Lookup after `assignSuffixes` at the suffix starting at byte `j`:
`base + j`. -/
theorem lookup_assign_suffix :
    ∀ (bl : List Nat) (pos : List (List Nat × Nat)) (base : Nat) (j : Nat),
      j < bl.length →
      posLookup (assignSuffixes pos bl base) (bl.drop j) = some (base + j) := by
  intro bl
  induction bl with
  | nil =>
    intro pos base j hj
    simp at hj
  | cons x t ih =>
    intro pos base j hj
    cases j with
    | zero =>
      simp only [assignSuffixes, List.drop_zero]
      rw [lookup_assign_other t ((x :: t, base) :: pos) (base + 1) (x :: t)
        ?side]
      case side =>
        intro j hj' hc
        have hlen := congrArg List.length hc
        simp only [List.length_drop, List.length_cons] at hlen
        omega
      simp [posLookup]
    | succ j =>
      simp only [assignSuffixes, List.drop_succ_cons]
      have := ih ((x :: t, base) :: pos) (base + 1) j (by simpa using hj)
      rw [this]
      congr 1
      omega

/-- The interning invariant: every mapped key is a nonempty sequence whose
recorded offset reads back exactly that sequence from the flat array, and
offsets identify keys uniquely. -/
def PoolInv (st : List Nat × List (List Nat × Nat)) : Prop :=
  (∀ k p, posLookup st.2 k = some p →
    (k ≠ [] ∧ p + k.length ≤ st.1.length ∧
      (st.1.drop p).take k.length = k))
  ∧ (∀ k1 k2 p, posLookup st.2 k1 = some p →
      posLookup st.2 k2 = some p → k1 = k2)

theorem poolInv_step (st : List Nat × List (List Nat × Nat))
    (bl : List Nat) (h : PoolInv st) : PoolInv (internStep st bl) := by
  obtain ⟨arr, pos⟩ := st
  obtain ⟨h1, h2⟩ := h
  replace h1 : ∀ k p, posLookup pos k = some p →
      (k ≠ [] ∧ p + k.length ≤ arr.length ∧
        (arr.drop p).take k.length = k) := h1
  replace h2 : ∀ k1 k2 p, posLookup pos k1 = some p →
      posLookup pos k2 = some p → k1 = k2 := h2
  simp only [internStep]
  by_cases hdef : (posLookup pos bl).isSome = true
  · rw [if_pos hdef]
    exact ⟨h1, h2⟩
  · rw [if_neg hdef]
    have hcases : ∀ k p,
        posLookup (assignSuffixes pos bl arr.length) k = some p →
        ((∃ j, j < bl.length ∧ bl.drop j = k ∧ p = arr.length + j) ∨
          (posLookup pos k = some p)) := by
      intro k p hk
      by_cases hsuf : ∃ j, j < bl.length ∧ bl.drop j = k
      · obtain ⟨j, hj, hdrop⟩ := hsuf
        left
        refine ⟨j, hj, hdrop, ?_⟩
        rw [← hdrop] at hk
        rw [lookup_assign_suffix bl pos arr.length j hj] at hk
        cases hk
        rfl
      · right
        rw [lookup_assign_other bl pos arr.length k ?side] at hk
        case side =>
          intro j hj hc
          exact hsuf ⟨j, hj, hc⟩
        exact hk
    constructor
    · intro k p hk
      rcases hcases k p hk with ⟨j, hj, hdrop, hp⟩ | hold
      · subst hp
        subst hdrop
        refine ⟨?_, ?_, ?_⟩
        · intro hc
          have := congrArg List.length hc
          simp only [List.length_drop] at this
          simp at this
          omega
        · simp only [List.length_drop, List.length_append]
          omega
        · rw [drop_append_add arr bl j]
          have : (bl.drop j).length = bl.length - j := by simp
          rw [List.length_drop]
          have h2' : (bl.drop j).take (bl.length - j) = bl.drop j := by
            rw [← List.length_drop]
            exact List.take_length _
          exact h2'
      · obtain ⟨hne, hle, hsl⟩ := h1 k p hold
        refine ⟨hne, ?_, ?_⟩
        · simp only [List.length_append]
          omega
        · rw [drop_append_of_le arr bl p (by omega)]
          rw [take_append_of_le _ bl k.length ?hl]
          case hl =>
            rw [List.length_drop]
            omega
          calc (arr.drop p).take k.length
              = ((arr.drop p).take k.length : List Nat) := rfl
            _ = k := hsl
    · intro k1 k2 p hk1 hk2
      rcases hcases k1 p hk1 with ⟨j1, hj1, hd1, hp1⟩ | ho1 <;>
        rcases hcases k2 p hk2 with ⟨j2, hj2, hd2, hp2⟩ | ho2
      · have : j1 = j2 := by omega
        subst this
        rw [← hd1, ← hd2]
      · obtain ⟨hne, hle, -⟩ := h1 k2 p ho2
        exfalso
        have : 1 ≤ k2.length := by
          cases k2 with
          | nil => exact absurd rfl hne
          | cons a as => simp
        omega
      · obtain ⟨hne, hle, -⟩ := h1 k1 p ho1
        exfalso
        have : 1 ≤ k1.length := by
          cases k1 with
          | nil => exact absurd rfl hne
          | cons a as => simp
        omega
      · exact h2 k1 k2 p ho1 ho2

/-- Once interned, a key stays interned through later steps. -/
theorem internStep_mono (st : List Nat × List (List Nat × Nat))
    (bl k : List Nat) (h : (posLookup st.2 k).isSome = true) :
    (posLookup (internStep st bl).2 k).isSome = true := by
  obtain ⟨arr, pos⟩ := st
  simp only [internStep]
  by_cases hdef : (posLookup pos bl).isSome = true
  · rw [if_pos hdef]
    exact h
  · rw [if_neg hdef]
    dsimp only at h ⊢
    by_cases hsuf : ∃ j, j < bl.length ∧ bl.drop j = k
    · obtain ⟨j, hj, hdrop⟩ := hsuf
      rw [← hdrop, lookup_assign_suffix bl pos arr.length j hj]
      rfl
    · rw [lookup_assign_other bl pos arr.length k ?side]
      case side =>
        intro j hj hc
        exact hsuf ⟨j, hj, hc⟩
      exact h

/-- After its own step, a nonempty sequence is interned. -/
theorem internStep_self (st : List Nat × List (List Nat × Nat))
    (bl : List Nat) (hne : bl ≠ []) :
    (posLookup (internStep st bl).2 bl).isSome = true := by
  obtain ⟨arr, pos⟩ := st
  simp only [internStep]
  by_cases hdef : (posLookup pos bl).isSome = true
  · rw [if_pos hdef]
    exact hdef
  · rw [if_neg hdef]
    dsimp only
    cases bl with
    | nil => exact absurd rfl hne
    | cons x t =>
      have := lookup_assign_suffix (x :: t) pos arr.length 0 (by simp)
      simp only [List.drop_zero] at this
      rw [this]
      rfl

theorem internFold_inv (ls : List (List Nat)) :
    ∀ (st : List Nat × List (List Nat × Nat)), PoolInv st →
      PoolInv (ls.foldl internStep st) := by
  induction ls with
  | nil =>
    intro st h
    exact h
  | cons bl ls ih =>
    intro st h
    exact ih _ (poolInv_step st bl h)

theorem internFold_mono (ls : List (List Nat)) :
    ∀ (st : List Nat × List (List Nat × Nat)) (k : List Nat),
      (posLookup st.2 k).isSome = true →
      (posLookup (ls.foldl internStep st).2 k).isSome = true := by
  induction ls with
  | nil =>
    intro st k h
    exact h
  | cons bl ls ih =>
    intro st k h
    exact ih _ k (internStep_mono st bl k h)

theorem internFold_mem (ls : List (List Nat)) :
    ∀ (st : List Nat × List (List Nat × Nat)) (k : List Nat), k ∈ ls →
      k ≠ [] → (posLookup (ls.foldl internStep st).2 k).isSome = true := by
  induction ls with
  | nil =>
    intro st k hk
    simp at hk
  | cons bl ls ih =>
    intro st k hk hne
    rcases List.mem_cons.mp hk with rfl | hm
    · exact internFold_mono ls _ k (internStep_self st k hne)
    · exact ih _ k hm hne

/-- C8: after interning, distinct sequences never share a starting offset;
reading the flat array from any interned sequence's recorded offset for its
length reproduces exactly that sequence (terminator included); and every
nonempty emitted sequence receives an offset. -/
theorem bytecode_pool_spec (ls : List (List Nat)) :
    (∀ k1 k2 p, posLookup (internPool ls).2 k1 = some p →
        posLookup (internPool ls).2 k2 = some p → k1 = k2)
  ∧ (∀ k p, posLookup (internPool ls).2 k = some p →
      (((internPool ls).1.drop p).take k.length = k ∧
        p + k.length ≤ (internPool ls).1.length))
  ∧ (∀ k, k ∈ ls → k ≠ [] →
      (posLookup (internPool ls).2 k).isSome = true) := by
  have hinv : PoolInv (internPool ls) := by
    apply internFold_inv
    constructor
    · intro k p hk
      cases hk
    · intro k1 k2 p hk1
      cases hk1
  obtain ⟨h1, h2⟩ := hinv
  refine ⟨h2, ?_, ?_⟩
  · intro k p hk
    obtain ⟨-, hle, hsl⟩ := h1 k p hk
    exact ⟨hsl, hle⟩
  · intro k hk hne
    apply internFold_mem
    · have hperm := (ls.perm_insertionSort
        (fun a b => b.length ≤ a.length)).symm
      exact hperm.mem_iff.mp hk
    · exact hne

/-- Witness for `bytecode_pool_spec`: interning `[1,2,0]` then `[2,0]` —
the second is a suffix of the first and shares its storage; reading two
bytes from its recorded offset `1` reproduces `[2,0]`. -/
theorem bytecode_pool_spec_witness :
    ((internPool [[1, 2, 0], [2, 0]]).1.drop 1).take 2 = [2, 0] := by
  exact (((bytecode_pool_spec [[1, 2, 0], [2, 0]]).2.1) [2, 0] 1
    (by decide)).1

/-! ## `startseq` (insns.pl, C7)

The disassembly-index builder computes the possible starting byte
sequences of an encoding.  Relevant branches of the `while` loop
(comments from the source):

```perl
        if ($c0 >= 01 && $c0 <= 04) {            # literal byte run
            ... collect hex, strip a disasm prefix, return if nonempty ...
        } elsif ($c0 >= 010 && $c0 <= 013) {     # byte plus register
            return addprefix($prefix, $c1..($c1+7));
        } elsif (($c0 & ~013) == 0144) {
            return addprefix($prefix, $c1, $c1|2);
        } elsif ($c0 == 0 || $c0 == 0340) {
            return $prefix;
        } elsif (($c0 & ~3) == 0260 || $c0 == 0270) {   # VEX/XOP
            ... $prefix .= sprintf('%s%02X%01X', $vex_class[$c], $m, $wlp & 3);
        } elsif (($c0 & ~3) == 0260 || $c0 == 0270) {   # EVEX
            ... $prefix .= sprintf('%s%02X%01X', 'evex', $m, $p);
        } elsif ($c0 >= 0172 && $c0 <= 173) {
            shift(@codes);      # skip is4 control byte
        } else { }
```

Note two quirks kept faithfully: the EVEX `elsif` repeats the VEX/XOP
condition verbatim (so it is unreachable), and the is4-skip upper bound is
written `173` — *decimal* 173, not octal `0173` — so it covers 0172..0255
octal, which includes all EVEX prefix codes 0240+v and 0250.  Strings are
`List Char`; the byte stream is the decodified code list. -/

/-- Perl bitwise complement `~x` on (64-bit) unsigned integers. -/
def perlNot (x : Nat) : Nat := 2^64 - 1 - x

def hexDigit (n : Nat) : Char :=
  (['0', '1', '2', '3', '4', '5', '6', '7', '8', '9',
    'A', 'B', 'C', 'D', 'E', 'F'] : List Char).getD n '0'

/-- `sprintf("%02X", b)` for a byte value. -/
def hex2 (b : Nat) : List Char := [hexDigit (b / 16 % 16), hexDigit (b % 16)]

/-- `sprintf("%01X", b)` for a nibble value. -/
def hex1 (b : Nat) : List Char := [hexDigit (b % 16)]

/-- `@vex_class = ( 'vex', 'xop', 'evex' )`; out-of-range subscripts give
Perl `undef`, the empty string in concatenation. -/
def vexClassName (c : Nat) : List Char :=
  ([[ 'v', 'e', 'x'], ['x', 'o', 'p'], ['e', 'v', 'e', 'x']] :
    List (List Char)).getD c []

/-- `@vexlist`: every `sprintf("%s%02X%01X", class, m, p)` key. -/
def vexlist : List (List Char) :=
  (List.range 3).flatMap fun c =>
    (List.range 32).flatMap fun m =>
      (List.range 4).map fun p => vexClassName c ++ hex2 m ++ hex1 p

/-- `@disasm_prefixes = (@vexlist, qw(0F24 0F25 0F38 0F3A 0F7A 0FA6 0FA7
0F), '')` — longer prefixes first, the empty string last (it always
matches). -/
def disasm_prefixes : List (List Char) :=
  vexlist ++
    [['0', 'F', '2', '4'], ['0', 'F', '2', '5'], ['0', 'F', '3', '8'],
     ['0', 'F', '3', 'A'], ['0', 'F', '7', 'A'], ['0', 'F', 'A', '6'],
     ['0', 'F', 'A', '7'], ['0', 'F'], []]

/-- The inner literal-run collector: starting from a `01..04` code, gather
the literal bytes of consecutive runs; stop at the first non-literal code
(returned for `unshift`) or at end of stream. -/
def litRunF : Nat → Nat → List Nat → List Nat × List Nat × Option Nat
  | 0, _, codes => ([], codes, none)
  | fuel + 1, c0, codes =>
    if 1 ≤ c0 ∧ c0 ≤ 4 then
      match codes.drop c0 with
      | [] => (codes.take c0, [], none)
      | c0' :: rest' =>
        let r := litRunF fuel c0' rest'
        (codes.take c0 ++ r.1, r.2.1, r.2.2)
    else ([], codes, some c0)

/-- Each recursive step of the run collector consumes at least one code, so
`codes.length + 1` fuel always suffices. -/
def litRun (c0 : Nat) (codes : List Nat) :
    List Nat × List Nat × Option Nat :=
  litRunF (codes.length + 1) c0 codes

/-- The prefix-stripping `foreach` over `@disasm_prefixes`: first match
wins; returns the new `$prefix` and `substr($fbs, $len, 2)`. -/
def stripPfx (fbs : List Char) : List Char × List Char :=
  match disasm_prefixes.find? (fun p => decide (fbs.take p.length = p)) with
  | some p => (p, (fbs.drop p.length).take 2)
  | none => ([], fbs.take 2)

/-- The `startseq` while-loop over the decodified byte stream, with
`fuel ≥ codes.length + 1` (every iteration consumes at least the shifted
code, so the wrapper's fuel never runs out). -/
def startseqF : Nat → List Nat → List Char → List (List Char)
  | 0, _, _ => []
  | _ + 1, [], _ => []
  | fuel + 1, c0 :: codes, pfx =>
    let c1 := codes.headD 0
    if 1 ≤ c0 ∧ c0 ≤ 4 then
      let r := litRun c0 codes
      let fbs0 := pfx ++ (r.1.map hex2).join
      let sp := stripPfx fbs0
      if sp.2 ≠ [] then [sp.1 ++ sp.2]
      else
        match r.2.2 with
        | none => []
        | some c0' => startseqF fuel (c0' :: r.2.1) sp.1
    else if 0o10 ≤ c0 ∧ c0 ≤ 0o13 then
      (List.range 8).map (fun k => pfx ++ hex2 (c1 + k))
    else if c0 &&& perlNot 0o13 = 0o144 then
      [pfx ++ hex2 c1, pfx ++ hex2 (c1 ||| 2)]
    else if c0 = 0 ∨ c0 = 0o340 then
      [pfx]
    else if c0 &&& perlNot 3 = 0o260 ∨ c0 = 0o270 then
      let m := codes.headD 0
      let wlp := codes.tail.headD 0
      startseqF fuel codes.tail.tail
        (pfx ++ vexClassName (m >>> 6) ++ hex2 (m &&& 31) ++
          hex1 (wlp &&& 3))
    else if c0 &&& perlNot 3 = 0o260 ∨ c0 = 0o270 then
      let p0 := codes.headD 0
      let p1 := codes.tail.headD 0
      startseqF fuel codes.tail.tail.tail.tail
        (pfx ++ ['e', 'v', 'e', 'x'] ++ hex2 (p0 &&& 7) ++ hex1 (p1 &&& 3))
    else if 0o172 ≤ c0 ∧ c0 ≤ 173 then
      startseqF fuel codes.tail pfx
    else
      startseqF fuel codes pfx

def startseq (codes : List Nat) : List (List Char) :=
  startseqF (codes.length + 1) codes []

/-- C7 (code bug): for a bytecode stream beginning with an EVEX
prefix-emission code (`0240+v` with its four payload bytes), `startseq`
emits no `evex{map}{wlp}` synthetic prefix key — the EVEX `elsif` repeats
the VEX/XOP condition verbatim and is dead, and the EVEX codes instead hit
the `0172..173`(decimal) is4-skip branch, so the example stream
`[0241, 0xF5, 0x7D, 0x48, 0300, 01, 0x58, 0]` yields the bare literal key
`"58"` and no key at all starts with `"evex"`, contradicting the claimed
behavior "as it does for VEX/XOP prefixes". -/
theorem startseq_evex_no_key :
    startseq [0o241, 0xF5, 0x7D, 0x48, 0o300, 0o1, 0x58, 0] =
      [['5', '8']]
  ∧ ((startseq [0o241, 0xF5, 0x7D, 0x48, 0o300, 0o1, 0x58, 0]).any
      (fun k => decide (k.take 4 = ['e', 'v', 'e', 'x']))) = false
  ∧ startseq [0o261, 0x05, 0x06, 0o1, 0x58, 0] =
      [['v', 'e', 'x', '0', '5', '2', '5', '8']] := by
  refine ⟨by decide, by decide, by decide⟩

/-! ## Relaxed-form expansion (insns.pl, C2): bit toolkit

The Perl code tests `($oi & ~$opmask) == 0` with 64-bit integer
complement; `perlNot` (defined with `startseq` above) models `~`.  These
lemmas characterize that test and count the subsets of a bitmask. -/

/-- Number of set bits of `mask` below position `n`. -/
def popBits (n mask : Nat) : Nat :=
  ((List.range n).filter (fun j => mask.testBit j)).length

theorem perlNot_testBit (m : Nat) (hm : m < 2^64) (i : Nat) :
    (perlNot m).testBit i = (decide (i < 64) && ! m.testBit i) := by
  unfold perlNot
  have h : 2^64 - 1 - m = 2^64 - (m + 1) := by omega
  rw [h]
  exact Nat.testBit_two_pow_sub_succ hm i

theorem and_eq_self_iff_testBit (x mask : Nat) :
    x &&& mask = x ↔
      ∀ j, x.testBit j = true → mask.testBit j = true := by
  constructor
  · intro h j hj
    have hc := congrArg (fun y => Nat.testBit y j) h
    simp only [Nat.testBit_and] at hc
    rw [hj] at hc
    simpa using hc
  · intro h
    apply Nat.eq_of_testBit_eq
    intro j
    simp only [Nat.testBit_and]
    cases hx : x.testBit j with
    | false => simp
    | true => simp [h j hx]

/-- `x & ~mask == 0` (64-bit `~`) says exactly that `x`'s bits lie inside
`mask`, for 64-bit values. -/
theorem perlNot_and_eq_zero {x m : Nat} (hx : x < 2^64) (hm : m < 2^64) :
    (x &&& perlNot m = 0) ↔ (x &&& m = x) := by
  constructor
  · intro h
    rw [and_eq_self_iff_testBit]
    intro j hj
    have hj64 : j < 64 := by
      by_contra hc
      have : x < 2^j := lt_of_lt_of_le hx
        (Nat.pow_le_pow_right (by norm_num) (le_of_not_lt hc))
      rw [Nat.testBit_lt_two_pow this] at hj
      cases hj
    have hc := congrArg (fun y => Nat.testBit y j) h
    simp only [Nat.testBit_and, Nat.zero_testBit] at hc
    rw [hj, perlNot_testBit m hm j] at hc
    simp only [decide_eq_true hj64] at hc
    simpa using hc
  · intro h
    apply Nat.eq_of_testBit_eq
    intro j
    simp only [Nat.testBit_and, Nat.zero_testBit]
    rw [perlNot_testBit m hm j]
    cases hxj : x.testBit j with
    | false => simp
    | true =>
      have := (and_eq_self_iff_testBit x m).mp h j hxj
      simp [this]

theorem testBit_high_false {x n j : Nat} (hx : x < 2^n) (hj : n ≤ j) :
    x.testBit j = false :=
  Nat.testBit_lt_two_pow
    (lt_of_lt_of_le hx (Nat.pow_le_pow_right (by norm_num) hj))

theorem and_mask_mod {x : Nat} (n mask : Nat) (hx : x < 2^n) :
    (x &&& mask = x) ↔ (x &&& mask % 2^n = x) := by
  rw [and_eq_self_iff_testBit, and_eq_self_iff_testBit]
  constructor
  · intro h j hj
    have hjn : j < n := by
      by_contra hc
      rw [testBit_high_false hx (le_of_not_lt hc)] at hj
      cases hj
    rw [Nat.testBit_mod_two_pow]
    simp [hjn, h j hj]
  · intro h j hj
    have hx2 := h j hj
    rw [Nat.testBit_mod_two_pow] at hx2
    exact (by simpa using hx2 : j < n ∧ mask.testBit j = true).2

theorem two_pow_add_and_self {x : Nat} (n mask : Nat) (hx : x < 2^n) :
    ((2^n + x) &&& mask = 2^n + x) ↔
      (mask.testBit n = true ∧ x &&& mask = x) := by
  rw [and_eq_self_iff_testBit, and_eq_self_iff_testBit]
  constructor
  · intro h
    constructor
    · apply h n
      rw [Nat.testBit_two_pow_add_eq]
      simp [Nat.testBit_lt_two_pow hx]
    · intro j hj
      have hjn : j < n := by
        by_contra hc
        rw [testBit_high_false hx (le_of_not_lt hc)] at hj
        cases hj
      apply h j
      rw [Nat.testBit_two_pow_add_gt hjn]
      exact hj
  · rintro ⟨hn, h⟩ j hj
    rcases Nat.lt_trichotomy j n with hlt | rfl | hgt
    · rw [Nat.testBit_two_pow_add_gt hlt] at hj
      exact h j hj
    · exact hn
    · exfalso
      have hb : 2^n + x < 2^j := by
        have h1 : 2^n + x < 2^(n+1) := by
          have := Nat.pow_succ 2 n
          omega
        exact lt_of_lt_of_le h1 (Nat.pow_le_pow_right (by norm_num) hgt)
      rw [Nat.testBit_lt_two_pow hb] at hj
      cases hj

theorem popBits_mod (n mask : Nat) : popBits n (mask % 2^n) = popBits n mask := by
  unfold popBits
  congr 1
  apply List.filter_congr
  intro j hj
  rw [List.mem_range] at hj
  rw [Nat.testBit_mod_two_pow]
  simp [hj]

theorem popBits_succ (n mask : Nat) :
    popBits (n+1) mask = popBits n mask + (if mask.testBit n then 1 else 0) := by
  unfold popBits
  rw [List.range_succ, List.filter_append, List.length_append]
  congr 1
  cases h : mask.testBit n <;> simp [h]

/-- Subsets of a bitmask `mask < 2^n` among `0..2^n-1`: exactly
`2^popcount` of them. -/
theorem count_subsets :
    ∀ (n mask : Nat), mask < 2^n →
      ((List.range (2^n)).filter
        (fun oi => decide (oi &&& mask = oi))).length = 2^(popBits n mask) := by
  intro n
  induction n with
  | zero =>
    intro mask hm
    have : mask = 0 := by
      simpa using hm
    subst this
    decide
  | succ n ih =>
    intro mask hm
    have h2 : (2:Nat)^(n+1) = 2^n + 2^n := by
      have := Nat.pow_succ 2 n
      omega
    have hmod : mask % 2^n < 2^n :=
      Nat.mod_lt _ (Nat.pos_pow_of_pos n (by norm_num))
    have e1 : (List.range (2^n)).filter
        (fun oi => decide (oi &&& mask = oi)) =
        (List.range (2^n)).filter
          (fun oi => decide (oi &&& mask % 2^n = oi)) := by
      apply List.filter_congr
      intro oi hoi
      rw [List.mem_range] at hoi
      exact decide_eq_decide.mpr (and_mask_mod n mask hoi)
    rw [h2, List.range_add, List.filter_append, List.length_append, e1,
      ih _ hmod, popBits_mod, List.filter_map, List.length_map]
    cases hb : mask.testBit n with
    | true =>
      have e2 : (List.range (2^n)).filter
          ((fun oi => decide (oi &&& mask = oi)) ∘ (fun x => 2^n + x)) =
          (List.range (2^n)).filter
            (fun oi => decide (oi &&& mask % 2^n = oi)) := by
        apply List.filter_congr
        intro oi hoi
        rw [List.mem_range] at hoi
        simp only [Function.comp_apply]
        apply decide_eq_decide.mpr
        constructor
        · intro h
          exact (and_mask_mod n mask hoi).mp
            ((two_pow_add_and_self n mask hoi).mp h).2
        · intro h
          exact (two_pow_add_and_self n mask hoi).mpr
            ⟨hb, (and_mask_mod n mask hoi).mpr h⟩
      rw [e2, ih _ hmod, popBits_mod, popBits_succ, hb]
      have hp := Nat.pow_succ 2 (popBits n mask)
      simp only [eq_self_iff_true, if_true]
      omega
    | false =>
      have e2 : (List.range (2^n)).filter
          ((fun oi => decide (oi &&& mask = oi)) ∘ (fun x => 2^n + x)) =
          [] := by
        apply List.filter_eq_nil_iff.mpr
        intro oi hoi
        rw [List.mem_range] at hoi
        simp only [Function.comp_apply, decide_eq_true_eq]
        intro hc
        have := ((two_pow_add_and_self n mask hoi).mp hc).1
        rw [hb] at this
        cases this
      rw [e2]
      simp only [List.length_nil]
      rw [popBits_succ, hb]
      simp

theorem popBits_lor_high (n x : Nat) :
    popBits n (x ||| 2^n) = popBits n x := by
  unfold popBits
  congr 1
  apply List.filter_congr
  intro j hj
  rw [List.mem_range] at hj
  rw [Nat.testBit_lor, Nat.testBit_two_pow_of_ne (Nat.ne_of_gt hj)]
  simp

/-- Every count `s ≤ popcount mask` is realized by some submask. -/
theorem exists_submask :
    ∀ (n mask : Nat), mask < 2^n → ∀ s, s ≤ popBits n mask →
      ∃ sub, sub &&& mask = sub ∧ sub < 2^n ∧ popBits n sub = s := by
  intro n
  induction n with
  | zero =>
    intro mask hm s hs
    have hm0 : mask = 0 := by simpa using hm
    have hs0 : s = 0 := by
      have : popBits 0 mask = 0 := rfl
      omega
    subst hm0
    subst hs0
    exact ⟨0, rfl, by norm_num, rfl⟩
  | succ n ih =>
    intro mask hm s hs
    have hmod : mask % 2^n < 2^n :=
      Nat.mod_lt _ (Nat.pos_pow_of_pos n (by norm_num))
    have hpb : popBits n (mask % 2^n) = popBits n mask := popBits_mod n mask
    have hlift : ∀ sub, sub &&& mask % 2^n = sub → sub < 2^n →
        (sub &&& mask = sub ∧ sub < 2^(n+1) ∧
          popBits (n+1) sub = popBits n sub) := by
      intro sub h1 h2
      refine ⟨(and_mask_mod n mask h2).mpr h1, ?_, ?_⟩
      · have : (2:Nat)^n < 2^(n+1) :=
          Nat.pow_lt_pow_right (by norm_num) (by omega)
        omega
      · rw [popBits_succ, Nat.testBit_lt_two_pow h2]
        simp
    rcases Nat.lt_or_ge s (popBits n mask + 1) with hlt | hge
    · have hs' : s ≤ popBits n (mask % 2^n) := by omega
      obtain ⟨sub, h1, h2, h3⟩ := ih (mask % 2^n) hmod s hs'
      obtain ⟨g1, g2, g3⟩ := hlift sub h1 h2
      exact ⟨sub, g1, g2, by rw [g3, h3]⟩
    · -- s > popBits n mask forces the top bit of mask to be set
      have hb : mask.testBit n = true := by
        by_contra hc
        rw [popBits_succ] at hs
        simp only [Bool.not_eq_true] at hc
        rw [hc] at hs
        simp at hs
        omega
      have hsval : s = popBits n mask + 1 := by
        rw [popBits_succ, hb] at hs
        simp at hs
        omega
      obtain ⟨sub, h1, h2, h3⟩ := ih (mask % 2^n) hmod (popBits n mask)
        (by omega)
      refine ⟨sub ||| 2^n, ?_, ?_, ?_⟩
      · rw [and_eq_self_iff_testBit]
        intro j hj
        rw [Nat.testBit_lor] at hj
        rcases Bool.or_eq_true_iff.mp hj with hjs | hjp
        · have := (and_eq_self_iff_testBit sub (mask % 2^n)).mp h1 j hjs
          rw [Nat.testBit_mod_two_pow] at this
          exact (by simpa using this : j < n ∧ mask.testBit j = true).2
        · have : j = n := by
            by_contra hc
            rw [Nat.testBit_two_pow_of_ne (Ne.symm hc)] at hjp
            cases hjp
          subst this
          exact hb
      · apply Nat.or_lt_two_pow
        · have : (2:Nat)^n < 2^(n+1) :=
            Nat.pow_lt_pow_right (by norm_num) (by omega)
          omega
        · exact Nat.pow_lt_pow_right (by norm_num) (by omega)
      · rw [popBits_succ, popBits_lor_high]
        have hbit : (sub ||| 2^n).testBit n = true := by
          rw [Nat.testBit_lor, Nat.testBit_two_pow_self]
          simp
        rw [hbit, h3]
        simp
        omega

/-! ## Relaxed-form expansion: string utilities

`List Char` stands for Perl strings.  `splitAll` is a plain single-char
split; `perlSplit` is Perl `split /c/`, which drops trailing empty
fields. -/

def splitAll (sep : Char) : List Char → List (List Char)
  | [] => [[]]
  | c :: rest =>
    let r := splitAll sep rest
    if c = sep then [] :: r
    else (c :: r.headD []) :: r.tail

def perlSplit (sep : Char) (s : List Char) : List (List Char) :=
  ((splitAll sep s).reverse.dropWhile (fun o => o.isEmpty)).reverse

/-- Perl `join(sep, list)`. -/
def perlJoin (sep : Char) : List (List Char) → List Char
  | [] => []
  | [a] => a
  | a :: b :: t => a ++ sep :: perlJoin sep (b :: t)

/-- `/X$/`: the last character is `c` (empty strings match nothing). -/
def endsWith (c : Char) (s : List Char) : Bool := s.getLastD ' ' == c

theorem splitAll_ne_nil (sep : Char) : ∀ (s : List Char), splitAll sep s ≠ []
  | [] => by simp [splitAll]
  | c :: rest => by
    simp only [splitAll]
    split_ifs <;> simp

theorem splitAll_no_sep (sep : Char) :
    ∀ (s : List Char), sep ∉ s → splitAll sep s = [s]
  | [], _ => rfl
  | c :: rest, h => by
    have hc : c ≠ sep := by
      intro hc
      exact h (by simp [hc])
    have hrest : sep ∉ rest := fun hm => h (by simp [hm])
    simp only [splitAll, splitAll_no_sep sep rest hrest]
    rw [if_neg hc]
    simp

theorem splitAll_append (sep : Char) :
    ∀ (a t : List Char), sep ∉ a →
      splitAll sep (a ++ sep :: t) = a :: splitAll sep t
  | [], t, _ => by
    simp [splitAll]
  | c :: a', t, h => by
    have hc : c ≠ sep := by
      intro hc
      exact h (by simp [hc])
    have ha' : sep ∉ a' := fun hm => h (by simp [hm])
    show splitAll sep ((c :: a') ++ sep :: t) = _
    rw [List.cons_append]
    simp only [splitAll]
    rw [splitAll_append sep a' t ha', if_neg hc]
    simp

theorem dropWhile_append_single {p : List Char → Bool}
    (a : List Char) (ha : p a = false) :
    ∀ (xs : List (List Char)),
      (xs ++ [a]).dropWhile p = xs.dropWhile p ++ [a]
  | [] => by simp [List.dropWhile, ha]
  | x :: xs => by
    simp only [List.cons_append, List.dropWhile]
    cases hx : p x with
    | true => simpa using dropWhile_append_single a ha xs
    | false => simp

theorem perlSplit_join (sep : Char) :
    ∀ (ls : List (List Char)), (∀ o ∈ ls, o ≠ [] ∧ sep ∉ o) →
      perlSplit sep (perlJoin sep ls) = ls
  | [], _ => rfl
  | [a], h => by
    obtain ⟨hne, hns⟩ := h a (by simp)
    simp only [perlJoin, perlSplit, splitAll_no_sep sep a hns]
    rw [List.reverse_singleton, List.dropWhile_cons]
    have : a.isEmpty = false := by
      cases a with
      | nil => exact absurd rfl hne
      | cons x xs => rfl
    rw [this]
    simp
  | a :: b :: t, h => by
    obtain ⟨hne, hns⟩ := h a (by simp)
    have ih := perlSplit_join sep (b :: t) (fun o ho => h o (by simp [ho]))
    simp only [perlJoin, perlSplit] at ih ⊢
    rw [splitAll_append sep a _ hns, List.reverse_cons]
    have hae : a.isEmpty = false := by
      cases a with
      | nil => exact absurd rfl hne
      | cons x xs => rfl
    rw [dropWhile_append_single a hae]
    rw [List.reverse_append]
    simp only [List.reverse_singleton, List.singleton_append, List.cons.injEq]
    exact ⟨by trivial, ih⟩

theorem mem_splitAll_subset (sep : Char) :
    ∀ (s : List Char) (o : List Char), o ∈ splitAll sep s →
      ∀ c ∈ o, c ∈ s := by
  intro s
  induction s with
  | nil =>
    intro o ho c hc
    simp [splitAll] at ho
    subst ho
    cases hc
  | cons x rest ih =>
    intro o ho c hc
    simp only [splitAll] at ho
    by_cases hx : x = sep
    · rw [if_pos hx] at ho
      rcases List.mem_cons.mp ho with rfl | hm
      · cases hc
      · exact List.mem_cons_of_mem x (ih o hm c hc)
    · rw [if_neg hx] at ho
      rcases hh : splitAll sep rest with - | ⟨h0, hr⟩
      · exact absurd hh (splitAll_ne_nil sep rest)
      · rw [hh] at ho
        simp only [List.headD_cons, List.tail_cons] at ho
        rcases List.mem_cons.mp ho with rfl | hm
        · rcases List.mem_cons.mp hc with rfl | hm2
          · simp
          · exact List.mem_cons_of_mem x
              (ih h0 (by rw [hh]; simp) c hm2)
        · exact List.mem_cons_of_mem x
            (ih o (by rw [hh]; exact List.mem_cons_of_mem h0 hm) c hc)

theorem mem_perlSplit_subset (sep : Char) (s o : List Char)
    (ho : o ∈ perlSplit sep s) : ∀ c ∈ o, c ∈ s := by
  intro c hc
  apply mem_splitAll_subset sep s o _ c hc
  unfold perlSplit at ho
  rw [List.mem_reverse] at ho
  have := List.dropWhile_sublist
    (l := (splitAll sep s).reverse) (p := fun o => o.isEmpty)
  have hm := this.subset ho
  rwa [List.mem_reverse] at hm

/-! ## Relaxed-form expansion (insns.pl `relaxed_forms`, C2)

One insns.dat pattern is the field tuple `[mnemonic, operands, encoding,
flags]` plus the derived relax mask (`$fields->[4]`). -/

structure RPattern where
  mnem  : List Char
  ops   : List Char
  enc   : List Char
  flags : List Char
  relax : Nat := 0
deriving DecidableEq, Repr

/-- The encoding regex `^(\[\s*)(\S+)(\s*:.*\])$`: the tail after the
operand-position word must match `\s*:.*\]$`. -/
def matchTailColon (t : List Char) : Bool :=
  match t.dropWhile (fun c => c.isWhitespace) with
  | ':' :: t2 => t2.getLastD ' ' == ']'
  | _ => false

/-- Backtracking of the greedy `\S+`: largest split point `k ≥ 1` whose
remainder matches. -/
def findK (word rest2 : List Char) : Nat → Option Nat
  | 0 => none
  | k + 1 =>
    if matchTailColon (word.drop (k+1) ++ rest2) then some (k+1)
    else findK word rest2 k

/-- Capture groups of `^(\[\s*)(\S+)(\s*:.*\])$` applied to the
encoding field, or `none` when the pattern (and so the regex guard in
`relaxed_forms`) fails. -/
def parseEnc (s : List Char) : Option (List Char × List Char × List Char) :=
  match s with
  | '[' :: rest =>
    let sp := rest.takeWhile (fun c => c.isWhitespace)
    let rest1 := rest.dropWhile (fun c => c.isWhitespace)
    let word := rest1.takeWhile (fun c => !c.isWhitespace)
    let rest2 := rest1.dropWhile (fun c => !c.isWhitespace)
    match findK word rest2 word.length with
    | some k => some ('[' :: sp, word.take k, word.drop k ++ rest2)
    | none => none
  | _ => none

def isWordChar (c : Char) : Bool := c.isAlphanum || c == '_'

/-- `s/(\.nd)x\b/$1$ndflag/`: replace the first `.ndx` (with a word
boundary after the `x`) by `.nd0`/`.nd1`. -/
def substNdx (nd : Nat) : List Char → List Char
  | [] => []
  | c :: rest =>
    if c = '.' then
      match rest with
      | 'n' :: 'd' :: 'x' :: tail =>
        if !(isWordChar (tail.headD ' ')) then
          '.' :: 'n' :: 'd' :: hexDigit nd :: tail
        else c :: substNdx nd rest
      | _ => c :: substNdx nd rest
    else c :: substNdx nd rest

/-- The operand-suffix scan: `*` on a non-first operand sets an `opmask`
bit (a first-operand `*` is warned about and skipped), `?` sets `opmask`
and `ndmask` bits and raises `ndflag`. -/
def computeMasks (ops : List (List Char)) : Nat × Nat × Nat :=
  (List.range ops.length).foldl
    (fun st oi =>
      if endsWith '*' (ops.getD oi []) then
        if oi = 0 then st
        else (st.1 ||| 2^oi, st.2.1, st.2.2)
      else if endsWith '?' (ops.getD oi []) then
        (st.1 ||| 2^oi, st.2.1 ||| 2^oi, 1)
      else st)
    (0, 0, 0)

/-- The inner `for $oj` loop of a derived form: accumulates the kept
operands, the relax mask (`$rbit` doubling only on non-`?`-omitted
positions), the selected operand-position characters, and `$ondflag`.
State: `(xops, relax, rbit, f2mid, ondflag)`. -/
def relaxInner (ops : List (List Char)) (posStr : List Char)
    (ndmask oi : Nat) :
    List (List Char) × Nat × Nat × List Char × Nat :=
  (List.range ops.length).foldl
    (fun st oj =>
      let ob := 2^oj
      if ob &&& ndmask &&& oi ≠ 0 then
        (st.1, st.2.1, st.2.2.1, st.2.2.2.1, 0)
      else
        ((if ob &&& perlNot oi ≠ 0 then st.1 ++ [ops.getD oj []] else st.1),
         (if ob &&& perlNot oi ≠ 0 then st.2.1 else st.2.1 ||| st.2.2.1),
         st.2.2.1 * 2,
         st.2.2.2.1 ++ (posStr.drop oj).take 1,
         st.2.2.2.2))
    ([], 0, 1, [], 0)

/-- `relaxed_forms` on a single pattern: the original (with its `.ndx`
substituted by the outer `ndflag`) followed by one derived pattern per
nonzero `$oi ⊆ $opmask`. -/
def relaxed_forms_one (f : RPattern) : List RPattern :=
  if ¬ (f.ops.any (fun c => c == '*' || c == '?')) then [f]
  else
    match parseEnc f.enc with
    | none => [f]
    | some (g1, g2, g3) =>
      let ops := perlSplit ',' f.ops
      let m := computeMasks ops
      let forig := { f with enc := substNdx m.2.2 f.enc }
      let derived := ((List.range (2^ops.length)).drop 1).filterMap
        (fun oi =>
          if oi &&& perlNot m.1 = 0 then
            let r := relaxInner ops g2 m.2.1 oi
            some { mnem := f.mnem, ops := perlJoin ',' r.1,
                   enc := substNdx r.2.2.2.2 (g1 ++ r.2.2.2.1 ++ g3),
                   flags := f.flags, relax := r.2.1 }
          else none)
      forig :: derived

/-! ### Characterizing the mask scan and the inner loop (C2) -/

theorem getD_mem_of_lt (l : List (List Char)) :
    ∀ (m : Nat), m < l.length → l.getD m [] ∈ l := by
  induction l with
  | nil =>
    intro m hm
    simp at hm
  | cons a t ih =>
    intro m hm
    cases m with
    | zero => simp
    | succ m =>
      rw [List.getD_cons_succ]
      exact List.mem_cons_of_mem a (ih m (by simpa using hm))

theorem getD_default_of_ge (l : List (List Char)) :
    ∀ (m : Nat), l.length ≤ m → l.getD m [] = [] := by
  induction l with
  | nil =>
    intro m _
    cases m <;> rfl
  | cons a t ih =>
    intro m hm
    cases m with
    | zero => simp at hm
    | succ m =>
      rw [List.getD_cons_succ]
      exact ih m (by simpa using hm)

/-- Closed form of the `opmask` accumulation up to index `m`. -/
def maskUpTo (ops : List (List Char)) : Nat → Nat
  | 0 => 0
  | m+1 =>
    if endsWith '*' (ops.getD m []) ∧ m ≠ 0 then maskUpTo ops m ||| 2^m
    else maskUpTo ops m

theorem maskUpTo_zero (ops : List (List Char)) : maskUpTo ops 0 = 0 := rfl

theorem maskUpTo_succ (ops : List (List Char)) (m : Nat) :
    maskUpTo ops (m+1) =
      if endsWith '*' (ops.getD m []) = true ∧ m ≠ 0 then maskUpTo ops m ||| 2^m
      else maskUpTo ops m := rfl

theorem computeMasks_eq (ops : List (List Char))
    (hq : ∀ o ∈ ops, endsWith '?' o = false) :
    computeMasks ops = (maskUpTo ops ops.length, 0, 0) := by
  have aux : ∀ m, (List.range m).foldl
      (fun st oi =>
        if endsWith '*' (ops.getD oi []) then
          if oi = 0 then st
          else (st.1 ||| 2^oi, st.2.1, st.2.2)
        else if endsWith '?' (ops.getD oi []) then
          (st.1 ||| 2^oi, st.2.1 ||| 2^oi, 1)
        else st)
      (0, 0, 0) = (maskUpTo ops m, 0, 0) := by
    intro m
    induction m with
    | zero => rfl
    | succ m ih =>
      rw [List.range_succ, List.foldl_append, ih]
      have hq' : endsWith '?' (ops.getD m []) = false := by
        rcases Nat.lt_or_ge m ops.length with hlt | hge
        · exact hq _ (getD_mem_of_lt ops m hlt)
        · rw [getD_default_of_ge ops m hge]
          rfl
      simp only [List.foldl_cons, List.foldl_nil]
      have hstep : ∀ (st : Nat × Nat × Nat),
          (if endsWith '*' (ops.getD m []) then
            if m = 0 then st
            else (st.1 ||| 2^m, st.2.1, st.2.2)
          else if endsWith '?' (ops.getD m []) then
            (st.1 ||| 2^m, st.2.1 ||| 2^m, 1)
          else st) =
          (if endsWith '*' (ops.getD m []) ∧ m ≠ 0 then
            (st.1 ||| 2^m, st.2.1, st.2.2) else st) := by
        intro st
        by_cases hs : endsWith '*' (ops.getD m []) = true
        · by_cases hm0 : m = 0
          · rw [if_pos hs, if_pos hm0, if_neg (fun hc => hc.2 hm0)]
          · rw [if_pos hs, if_neg hm0, if_pos ⟨hs, hm0⟩]
        · rw [if_neg hs, if_neg (by rw [hq']; exact Bool.false_ne_true),
            if_neg (fun hc => hs hc.1)]
      rw [hstep, maskUpTo_succ]
      by_cases hc : endsWith '*' (ops.getD m []) = true ∧ m ≠ 0
      · rw [if_pos hc, if_pos hc]
      · rw [if_neg hc, if_neg hc]
  exact aux ops.length

theorem maskUpTo_lt (ops : List (List Char)) :
    ∀ (m : Nat), maskUpTo ops m < 2^m := by
  intro m
  induction m with
  | zero =>
    rw [maskUpTo_zero]
    norm_num
  | succ m ih =>
    have h1 : (2:Nat)^m < 2^(m+1) :=
      Nat.pow_lt_pow_right (by norm_num) (by omega)
    rw [maskUpTo_succ]
    split_ifs
    · exact Nat.or_lt_two_pow (by omega) h1
    · omega

theorem maskUpTo_testBit (ops : List (List Char))
    (h0 : endsWith '*' (ops.getD 0 []) = false) :
    ∀ (m j : Nat), (maskUpTo ops m).testBit j =
      (decide (j < m) && endsWith '*' (ops.getD j [])) := by
  intro m
  induction m with
  | zero =>
    intro j
    rw [maskUpTo_zero]
    simp [Nat.zero_testBit]
  | succ m ih =>
    intro j
    rw [maskUpTo_succ]
    by_cases hc : endsWith '*' (ops.getD m []) = true ∧ m ≠ 0
    · rw [if_pos hc]
      rw [Nat.testBit_lor, ih j]
      by_cases hj : j = m
      · subst hj
        rw [Nat.testBit_two_pow_self, hc.1]
        have hd : (decide (j < j+1)) = true := decide_eq_true (Nat.lt_succ_self j)
        rw [hd]
        simp
      · rw [Nat.testBit_two_pow_of_ne (fun hc2 => hj hc2.symm)]
        have : (decide (j < m+1) : Bool) = decide (j < m) := by
          simp only [decide_eq_decide]
          omega
        rw [this]
        simp
    · rw [if_neg hc]
      rw [ih j]
      by_cases hj : j = m
      · subst hj
        have hsm : endsWith '*' (ops.getD j []) = false := by
          by_cases hj0 : j = 0
          · subst hj0
            exact h0
          · rcases not_and_or.mp hc with h | h
            · simpa using h
            · exact absurd hj0 (by simpa using h)
        rw [hsm]
        simp
      · have : (decide (j < m+1) : Bool) = decide (j < m) := by
          simp only [decide_eq_decide]
          omega
        rw [this]

theorem range_filter_getD (p : List Char → Bool) :
    ∀ (l : List (List Char)),
      ((List.range l.length).filter (fun j => p (l.getD j []))).length =
        (l.filter p).length := by
  intro l
  induction l with
  | nil => rfl
  | cons a t ih =>
    rw [List.length_cons, List.range_succ_eq_map, List.filter_cons,
      List.filter_map]
    have hcomp : ((fun j => p ((a :: t).getD j [])) ∘ Nat.succ) =
        (fun j => p (t.getD j [])) := by
      funext j
      simp [List.getD_cons_succ]
    rw [hcomp]
    simp only [List.getD_cons_zero]
    rw [List.filter_cons]
    by_cases hpa : p a = true
    · rw [if_pos hpa, if_pos hpa]
      simp only [List.length_cons, List.length_map]
      rw [ih]
    · rw [if_neg hpa, if_neg hpa]
      rw [List.length_map, ih]

theorem popBits_maskUpTo (ops : List (List Char))
    (h0 : endsWith '*' (ops.getD 0 []) = false) :
    popBits ops.length (maskUpTo ops ops.length) =
      (ops.filter (endsWith '*')).length := by
  unfold popBits
  rw [← range_filter_getD (endsWith '*') ops]
  congr 1
  apply List.filter_congr
  intro j hj
  rw [List.mem_range] at hj
  rw [maskUpTo_testBit ops h0 ops.length j]
  simp [hj]


/-- Closed form of the kept-operand list built by the inner loop of
`relaxed_forms` up to operand index `m` (for `ndmask = 0`). -/
def keepUpTo (ops : List (List Char)) (oi : Nat) : Nat → List (List Char)
  | 0 => []
  | m+1 =>
    if 2^m &&& perlNot oi ≠ 0 then keepUpTo ops oi m ++ [ops.getD m []]
    else keepUpTo ops oi m

theorem keepUpTo_zero (ops : List (List Char)) (oi : Nat) :
    keepUpTo ops oi 0 = [] := rfl

theorem keepUpTo_succ (ops : List (List Char)) (oi m : Nat) :
    keepUpTo ops oi (m+1) =
      if 2^m &&& perlNot oi ≠ 0 then keepUpTo ops oi m ++ [ops.getD m []]
      else keepUpTo ops oi m := rfl

/-- Closed form of the `relax` accumulator of the inner loop. -/
def relaxUpTo (oi : Nat) : Nat → Nat
  | 0 => 0
  | m+1 =>
    if 2^m &&& perlNot oi ≠ 0 then relaxUpTo oi m else relaxUpTo oi m ||| 2^m

theorem relaxUpTo_zero (oi : Nat) : relaxUpTo oi 0 = 0 := rfl

theorem relaxUpTo_succ (oi m : Nat) :
    relaxUpTo oi (m+1) =
      if 2^m &&& perlNot oi ≠ 0 then relaxUpTo oi m
      else relaxUpTo oi m ||| 2^m := rfl

/-- Closed form of the encoding-letter accumulator of the inner loop. -/
def selUpTo (posStr : List Char) : Nat → List Char
  | 0 => []
  | m+1 => selUpTo posStr m ++ (posStr.drop m).take 1

theorem selUpTo_zero (posStr : List Char) : selUpTo posStr 0 = [] := rfl

theorem selUpTo_succ (posStr : List Char) (m : Nat) :
    selUpTo posStr (m+1) = selUpTo posStr m ++ (posStr.drop m).take 1 := rfl

theorem relaxInner_eq (ops : List (List Char)) (posStr : List Char) (oi : Nat) :
    relaxInner ops posStr 0 oi =
      (keepUpTo ops oi ops.length, relaxUpTo oi ops.length, 2^ops.length,
       selUpTo posStr ops.length, 0) := by
  have aux : ∀ m, (List.range m).foldl
      (fun (st : List (List Char) × Nat × Nat × List Char × Nat) oj =>
        if 2^oj &&& 0 &&& oi ≠ 0 then
          (st.1, st.2.1, st.2.2.1, st.2.2.2.1, 0)
        else
          ((if 2^oj &&& perlNot oi ≠ 0 then st.1 ++ [ops.getD oj []] else st.1),
           (if 2^oj &&& perlNot oi ≠ 0 then st.2.1 else st.2.1 ||| st.2.2.1),
           st.2.2.1 * 2,
           st.2.2.2.1 ++ (posStr.drop oj).take 1,
           st.2.2.2.2))
      ([], 0, 1, [], 0) =
      (keepUpTo ops oi m, relaxUpTo oi m, 2^m, selUpTo posStr m, 0) := by
    intro m
    induction m with
    | zero => rfl
    | succ m ih =>
      rw [List.range_succ, List.foldl_append, ih]
      simp only [List.foldl_cons, List.foldl_nil]
      have hz : ¬(2^m &&& 0 &&& oi ≠ 0) := by
        rw [Nat.and_zero, Nat.zero_and]
        exact fun h => h rfl
      rw [if_neg hz, keepUpTo_succ, relaxUpTo_succ, selUpTo_succ, pow_succ]
  exact aux ops.length

theorem two_pow_and_ne_zero_iff (m x : Nat) :
    (2^m &&& x ≠ 0) ↔ x.testBit m = true := by
  constructor
  · intro h
    by_contra hb
    apply h
    apply Nat.eq_of_testBit_eq
    intro j
    rw [Nat.testBit_and, Nat.zero_testBit]
    by_cases hj : j = m
    · subst hj
      have hxb : x.testBit j = false := by
        cases hxx : x.testBit j with
        | false => rfl
        | true => exact absurd hxx hb
      rw [hxb]
      simp
    · rw [Nat.testBit_two_pow_of_ne (fun hc => hj hc.symm)]
      simp
  · intro hx h0
    have hc := congrArg (fun y => Nat.testBit y m) h0
    simp only [Nat.testBit_and, Nat.testBit_two_pow_self, hx,
      Nat.zero_testBit] at hc
    simp at hc

/-- The inner-loop keep test `$ob & ~$oi` is nonzero exactly when bit `m`
of the subset `oi` is clear. -/
theorem kept_cond_iff (oi m : Nat) (hoi : oi < 2^64) (hm : m < 64) :
    (2^m &&& perlNot oi ≠ 0) ↔ oi.testBit m = false := by
  rw [two_pow_and_ne_zero_iff, perlNot_testBit oi hoi m]
  simp [hm]

theorem relaxUpTo_testBit (oi : Nat) (hoi : oi < 2^64) :
    ∀ (m : Nat), m ≤ 64 → ∀ j,
      (relaxUpTo oi m).testBit j = (decide (j < m) && oi.testBit j) := by
  intro m
  induction m with
  | zero =>
    intro _ j
    rw [relaxUpTo_zero, Nat.zero_testBit]
    simp
  | succ m ih =>
    intro hm j
    rw [relaxUpTo_succ]
    by_cases hk : 2^m &&& perlNot oi ≠ 0
    · have hbm : oi.testBit m = false :=
        (kept_cond_iff oi m hoi (by omega)).mp hk
      rw [if_pos hk, ih (by omega) j]
      by_cases hj : j = m
      · subst hj
        rw [hbm]
        simp
      · have hd : (decide (j < m+1)) = decide (j < m) := by
          simp only [decide_eq_decide]
          omega
        rw [hd]
    · have hbm : oi.testBit m = true := by
        cases hxx : oi.testBit m with
        | false => exact absurd ((kept_cond_iff oi m hoi (by omega)).mpr hxx) hk
        | true => rfl
      rw [if_neg hk, Nat.testBit_lor, ih (by omega) j]
      by_cases hj : j = m
      · subst hj
        rw [Nat.testBit_two_pow_self, hbm]
        have hd : (decide (j < j+1)) = true := decide_eq_true (Nat.lt_succ_self j)
        rw [hd]
        simp
      · rw [Nat.testBit_two_pow_of_ne (fun hc => hj hc.symm)]
        have hd : (decide (j < m+1)) = decide (j < m) := by
          simp only [decide_eq_decide]
          omega
        rw [hd]
        simp

/-- For a subset `oi` of at most 64 operand bits, the accumulated relax
mask is `oi` itself: one bit per omitted operand position. -/
theorem relaxUpTo_eq_self (oi n : Nat) (hn : n ≤ 64) (hoi : oi < 2^n) :
    relaxUpTo oi n = oi := by
  have hoi64 : oi < 2^64 :=
    lt_of_lt_of_le hoi (Nat.pow_le_pow_right (by norm_num) hn)
  apply Nat.eq_of_testBit_eq
  intro j
  rw [relaxUpTo_testBit oi hoi64 n hn j]
  by_cases hj : j < n
  · simp [hj]
  · rw [testBit_high_false hoi (by omega)]
    simp

theorem popBits_le (n mask : Nat) : popBits n mask ≤ n := by
  unfold popBits
  exact le_trans (List.length_filter_le _ _) (le_of_eq (List.length_range n))

theorem popBits_zero_mask (n : Nat) : popBits n 0 = 0 := by
  simp [popBits, Nat.zero_testBit]

theorem keepUpTo_length (ops : List (List Char)) (oi : Nat) (hoi : oi < 2^64) :
    ∀ (m : Nat), m ≤ 64 →
      (keepUpTo ops oi m).length = m - popBits m oi := by
  intro m
  induction m with
  | zero =>
    intro _
    simp [keepUpTo_zero, popBits]
  | succ m ih =>
    intro hm
    have hpb := popBits_le m oi
    rw [keepUpTo_succ, popBits_succ]
    by_cases hk : 2^m &&& perlNot oi ≠ 0
    · have hbm : oi.testBit m = false :=
        (kept_cond_iff oi m hoi (by omega)).mp hk
      rw [if_pos hk, hbm, List.length_append, ih (by omega)]
      simp
      omega
    · have hbm : oi.testBit m = true := by
        cases hxx : oi.testBit m with
        | false => exact absurd ((kept_cond_iff oi m hoi (by omega)).mpr hxx) hk
        | true => rfl
      rw [if_neg hk, hbm, ih (by omega)]
      simp

theorem keepUpTo_subset (ops : List (List Char)) (oi : Nat) :
    ∀ (m : Nat), m ≤ ops.length → ∀ o ∈ keepUpTo ops oi m, o ∈ ops := by
  intro m
  induction m with
  | zero =>
    intro _ o ho
    rw [keepUpTo_zero] at ho
    simp at ho
  | succ m ih =>
    intro hm o ho
    rw [keepUpTo_succ] at ho
    by_cases hk : 2^m &&& perlNot oi ≠ 0
    · rw [if_pos hk] at ho
      rcases List.mem_append.mp ho with h | h
      · exact ih (by omega) o h
      · have : o = ops.getD m [] := by simpa using h
        rw [this]
        exact getD_mem_of_lt ops m (by omega)
    · rw [if_neg hk] at ho
      exact ih (by omega) o ho


theorem mem_perlSplit_of_splitAll (sep : Char) (s o : List Char)
    (ho : o ∈ perlSplit sep s) : o ∈ splitAll sep s := by
  unfold perlSplit at ho
  rw [List.mem_reverse] at ho
  have hsub := List.dropWhile_sublist
    (l := (splitAll sep s).reverse) (p := fun o => o.isEmpty)
  have hm := hsub.subset ho
  rwa [List.mem_reverse] at hm

theorem splitAll_sep_not_mem (sep : Char) :
    ∀ (s : List Char), ∀ o ∈ splitAll sep s, sep ∉ o := by
  intro s
  induction s with
  | nil =>
    intro o ho
    simp [splitAll] at ho
    subst ho
    simp
  | cons c rest ih =>
    intro o ho
    simp only [splitAll] at ho
    by_cases hc : c = sep
    · rw [if_pos hc] at ho
      rcases List.mem_cons.mp ho with h | h
      · subst h
        simp
      · exact ih o h
    · rw [if_neg hc] at ho
      rcases List.mem_cons.mp ho with h | h
      · subst h
        intro hmem
        rcases List.mem_cons.mp hmem with h1 | h1
        · exact hc h1.symm
        · rcases hsp : splitAll sep rest with _ | ⟨a, r2⟩
          · exact splitAll_ne_nil sep rest hsp
          · rw [hsp] at h1
            simp at h1
            exact (ih a (by rw [hsp]; simp)) h1
      · rcases hsp : splitAll sep rest with _ | ⟨a, r2⟩
        · exact absurd hsp (splitAll_ne_nil sep rest)
        · rw [hsp] at h
          simp at h
          exact ih o (by rw [hsp]; exact List.mem_cons_of_mem a h)

theorem perlSplit_sep_not_mem (sep : Char) (s o : List Char)
    (ho : o ∈ perlSplit sep s) : sep ∉ o :=
  splitAll_sep_not_mem sep s o (mem_perlSplit_of_splitAll sep s o ho)

theorem getLastD_mem : ∀ (o : List Char) (d : Char), o ≠ [] → o.getLastD d ∈ o
  | [], _, h => absurd rfl h
  | [a], d, _ => by simp
  | a :: b :: t, d, _ => by
    rw [List.getLastD_cons]
    exact List.mem_cons_of_mem a (getLastD_mem (b :: t) a (by simp))

theorem mem_of_endsWith {c : Char} {o : List Char} (hne : o ≠ [])
    (h : endsWith c o = true) : c ∈ o := by
  unfold endsWith at h
  have hg : o.getLastD ' ' = c := eq_of_beq h
  rw [← hg]
  exact getLastD_mem o ' ' hne

theorem mem_range_drop_one (m x : Nat) :
    x ∈ (List.range m).drop 1 ↔ 1 ≤ x ∧ x < m := by
  cases m with
  | zero =>
    simp [List.range_zero]
  | succ m2 =>
    rw [List.range_succ_eq_map]
    simp only [List.drop_succ_cons, List.drop_zero]
    rw [List.mem_map]
    constructor
    · rintro ⟨y, hy, rfl⟩
      rw [List.mem_range] at hy
      omega
    · rintro ⟨h1, h2⟩
      refine ⟨x - 1, ?_, ?_⟩
      · rw [List.mem_range]
        omega
      · omega

theorem range_eq_cons_drop (k : Nat) (hk : 1 ≤ k) :
    List.range k = 0 :: (List.range k).drop 1 := by
  cases k with
  | zero => omega
  | succ k2 =>
    rw [List.range_succ_eq_map]
    rw [List.drop_succ_cons, List.drop_zero]

theorem length_filterMap_ite {β : Type} (p : Nat → Prop) [DecidablePred p]
    (g : Nat → β) :
    ∀ (l : List Nat),
      (l.filterMap (fun x => if p x then some (g x) else none)).length =
        (l.filter (fun x => decide (p x))).length := by
  intro l
  induction l with
  | nil => rfl
  | cons a t ih =>
    by_cases hp : p a <;>
      simp [List.filterMap_cons, List.filter_cons, hp, ih]


/-- C2: for every pattern with `N ≥ 1` operands suffixed `*` (none of
them the first operand, no `?`-suffixed operands, at most 64 operands,
all nonempty) whose encoding field parses as a bracketed DSL encoding,
relaxed-form expansion produces exactly `2^N` patterns; the operand
counts of the produced patterns take every value from `total - N` up to
`total`; and every derived pattern records as its relax mask exactly the
chosen subset `oi` of omitted positions — each set bit lies at a
non-first `*`-operand position — while keeping exactly the operands at
the cleared positions. -/
theorem relaxed_forms_spec (f : RPattern)
    (hq : ∀ o ∈ (perlSplit ',' f.ops), endsWith '?' o = false)
    (h0 : endsWith '*' ((perlSplit ',' f.ops).getD 0 []) = false)
    (hne : ∀ o ∈ (perlSplit ',' f.ops), o ≠ [])
    (hn64 : (perlSplit ',' f.ops).length ≤ 64)
    (henc : (parseEnc f.enc).isSome = true)
    (hN : 1 ≤ ((perlSplit ',' f.ops).filter (endsWith '*')).length) :
    (relaxed_forms_one f).length = 2^((perlSplit ',' f.ops).filter (endsWith '*')).length ∧
    (∀ s, (perlSplit ',' f.ops).length - ((perlSplit ',' f.ops).filter (endsWith '*')).length ≤ s → s ≤ (perlSplit ',' f.ops).length →
        ∃ p ∈ relaxed_forms_one f, (perlSplit ',' p.ops).length = s) ∧
    (∀ p ∈ (relaxed_forms_one f).tail, ∃ oi,
        1 ≤ oi ∧ oi < 2^(perlSplit ',' f.ops).length ∧
        p.relax = oi ∧
        (∀ j, oi.testBit j = true →
            j < (perlSplit ',' f.ops).length ∧ endsWith '*' ((perlSplit ',' f.ops).getD j []) = true) ∧
        perlSplit ',' p.ops = keepUpTo (perlSplit ',' f.ops) oi (perlSplit ',' f.ops).length) := by
  have hfilter_ne : (perlSplit ',' f.ops).filter (endsWith '*') ≠ [] := by
    intro hnil
    rw [hnil] at hN
    simp at hN
  rcases List.exists_mem_of_ne_nil _ hfilter_ne with ⟨o, homem⟩
  have ho_mem := (List.mem_filter.mp homem).1
  have ho_star := (List.mem_filter.mp homem).2
  have hstar : f.ops.any (fun c => c == '*' || c == '?') = true := by
    rw [List.any_eq_true]
    refine ⟨'*', ?_, by decide⟩
    exact mem_perlSplit_subset ',' f.ops o ho_mem '*'
      (mem_of_endsWith (hne o ho_mem) ho_star)
  have hguard : ¬¬(f.ops.any (fun c => c == '*' || c == '?') = true) :=
    fun hc => hc hstar
  rcases hpe : parseEnc f.enc with _ | ⟨g1, g2, g3⟩
  · rw [hpe] at henc
    simp at henc
  have hRF : relaxed_forms_one f =
      { f with enc := substNdx 0 f.enc } ::
        ((List.range (2^(perlSplit ',' f.ops).length)).drop 1).filterMap
          (fun oi =>
            if oi &&& perlNot (maskUpTo (perlSplit ',' f.ops) (perlSplit ',' f.ops).length) = 0 then
              some { mnem := f.mnem,
                     ops := perlJoin ',' (keepUpTo (perlSplit ',' f.ops) oi (perlSplit ',' f.ops).length),
                     enc := substNdx 0 (g1 ++ selUpTo g2 (perlSplit ',' f.ops).length ++ g3),
                     flags := f.flags,
                     relax := relaxUpTo oi (perlSplit ',' f.ops).length }
            else none) := by
    unfold relaxed_forms_one
    rw [if_neg hguard, hpe]
    simp only [computeMasks_eq (perlSplit ',' f.ops) hq, relaxInner_eq]
  have hNpop : popBits (perlSplit ',' f.ops).length (maskUpTo (perlSplit ',' f.ops) (perlSplit ',' f.ops).length) = ((perlSplit ',' f.ops).filter (endsWith '*')).length :=
    popBits_maskUpTo (perlSplit ',' f.ops) h0
  have hOPMlt : maskUpTo (perlSplit ',' f.ops) (perlSplit ',' f.ops).length < 2^(perlSplit ',' f.ops).length := maskUpTo_lt (perlSplit ',' f.ops) (perlSplit ',' f.ops).length
  have h2le : (2:Nat)^(perlSplit ',' f.ops).length ≤ 2^64 :=
    Nat.pow_le_pow_right (by norm_num) hn64
  have hOPM64 : maskUpTo (perlSplit ',' f.ops) (perlSplit ',' f.ops).length < 2^64 := lt_of_lt_of_le hOPMlt h2le
  have hcount : ((List.range (2^(perlSplit ',' f.ops).length)).filter
      (fun oi => decide (oi &&& perlNot (maskUpTo (perlSplit ',' f.ops) (perlSplit ',' f.ops).length) = 0))).length = 2^((perlSplit ',' f.ops).filter (endsWith '*')).length := by
    rw [← hNpop, ← count_subsets (perlSplit ',' f.ops).length (maskUpTo (perlSplit ',' f.ops) (perlSplit ',' f.ops).length) hOPMlt]
    congr 1
    apply List.filter_congr
    intro x hx
    rw [List.mem_range] at hx
    simp only [decide_eq_decide]
    exact perlNot_and_eq_zero (lt_of_lt_of_le hx h2le) hOPM64
  have h2n1 : 1 ≤ 2^(perlSplit ',' f.ops).length := Nat.one_le_two_pow
  have hzc : (fun oi => decide (oi &&& perlNot (maskUpTo (perlSplit ',' f.ops) (perlSplit ',' f.ops).length) = 0)) 0 = true := by
    simp only [Nat.zero_and]
    simp
  have hbridge : ((List.range (2^(perlSplit ',' f.ops).length)).filter
      (fun oi => decide (oi &&& perlNot (maskUpTo (perlSplit ',' f.ops) (perlSplit ',' f.ops).length) = 0))).length =
      (((List.range (2^(perlSplit ',' f.ops).length)).drop 1).filter
        (fun oi => decide (oi &&& perlNot (maskUpTo (perlSplit ',' f.ops) (perlSplit ',' f.ops).length) = 0))).length + 1 := by
    conv_lhs => rw [range_eq_cons_drop (2^(perlSplit ',' f.ops).length) h2n1]
    rw [List.filter_cons, if_pos hzc, List.length_cons]
  have hround : ∀ oi, perlSplit ',' (perlJoin ',' (keepUpTo (perlSplit ',' f.ops) oi (perlSplit ',' f.ops).length)) =
      keepUpTo (perlSplit ',' f.ops) oi (perlSplit ',' f.ops).length := by
    intro oi
    apply perlSplit_join
    intro o2 ho2
    have ho2m : o2 ∈ (perlSplit ',' f.ops) :=
      keepUpTo_subset (perlSplit ',' f.ops) oi (perlSplit ',' f.ops).length le_rfl o2 ho2
    exact ⟨hne o2 ho2m, perlSplit_sep_not_mem ',' f.ops o2 ho2m⟩
  refine ⟨?_, ?_, ?_⟩
  · rw [hRF, List.length_cons, length_filterMap_ite]
    omega
  · intro s hs1 hs2
    by_cases hsn : s = (perlSplit ',' f.ops).length
    · refine ⟨{ f with enc := substNdx 0 f.enc }, ?_, ?_⟩
      · rw [hRF]
        exact List.mem_cons_self _ _
      · rw [hsn]
    · have hslt : s < (perlSplit ',' f.ops).length := by omega
      have hsub_le : (perlSplit ',' f.ops).length - s ≤ popBits (perlSplit ',' f.ops).length (maskUpTo (perlSplit ',' f.ops) (perlSplit ',' f.ops).length) := by
        rw [hNpop]
        omega
      obtain ⟨sub, hsubOPM, hsublt, hsubpop⟩ :=
        exists_submask (perlSplit ',' f.ops).length (maskUpTo (perlSplit ',' f.ops) (perlSplit ',' f.ops).length) hOPMlt ((perlSplit ',' f.ops).length - s) hsub_le
      have hsub64 : sub < 2^64 := lt_of_lt_of_le hsublt h2le
      have hsub_ne : sub ≠ 0 := by
        intro hz
        rw [hz, popBits_zero_mask] at hsubpop
        omega
      refine ⟨{ mnem := f.mnem,
                 ops := perlJoin ',' (keepUpTo (perlSplit ',' f.ops) sub (perlSplit ',' f.ops).length),
                 enc := substNdx 0 (g1 ++ selUpTo g2 (perlSplit ',' f.ops).length ++ g3),
                 flags := f.flags,
                 relax := relaxUpTo sub (perlSplit ',' f.ops).length }, ?_, ?_⟩
      · rw [hRF]
        apply List.mem_cons_of_mem
        rw [List.mem_filterMap]
        refine ⟨sub, ?_, ?_⟩
        · rw [mem_range_drop_one]
          exact ⟨Nat.one_le_iff_ne_zero.mpr hsub_ne, hsublt⟩
        · rw [if_pos ((perlNot_and_eq_zero hsub64 hOPM64).mpr hsubOPM)]
      · show (perlSplit ',' (perlJoin ',' (keepUpTo (perlSplit ',' f.ops) sub (perlSplit ',' f.ops).length))).length = s
        rw [hround sub, keepUpTo_length (perlSplit ',' f.ops) sub hsub64 (perlSplit ',' f.ops).length hn64, hsubpop]
        omega
  · intro p hp
    rw [hRF] at hp
    simp only [List.tail_cons] at hp
    rw [List.mem_filterMap] at hp
    obtain ⟨oi, hoi_mem, hoi_eq⟩ := hp
    rw [mem_range_drop_one] at hoi_mem
    by_cases hcond : oi &&& perlNot (maskUpTo (perlSplit ',' f.ops) (perlSplit ',' f.ops).length) = 0
    · rw [if_pos hcond] at hoi_eq
      have hp_eq := Option.some.inj hoi_eq
      have hoi64 : oi < 2^64 := lt_of_lt_of_le hoi_mem.2 h2le
      refine ⟨oi, hoi_mem.1, hoi_mem.2, ?_, ?_, ?_⟩
      · rw [← hp_eq]
        show relaxUpTo oi (perlSplit ',' f.ops).length = oi
        exact relaxUpTo_eq_self oi (perlSplit ',' f.ops).length hn64 hoi_mem.2
      · intro j hj
        have hsubOPM : oi &&& (maskUpTo (perlSplit ',' f.ops) (perlSplit ',' f.ops).length) = oi :=
          (perlNot_and_eq_zero hoi64 hOPM64).mp hcond
        have hOb := (and_eq_self_iff_testBit oi (maskUpTo (perlSplit ',' f.ops) (perlSplit ',' f.ops).length)).mp hsubOPM j hj
        rw [maskUpTo_testBit (perlSplit ',' f.ops) h0 (perlSplit ',' f.ops).length j] at hOb
        have hOb2 : (decide (j < (perlSplit ',' f.ops).length) = true) ∧
            endsWith '*' ((perlSplit ',' f.ops).getD j []) = true := by
          simpa using hOb
        exact ⟨of_decide_eq_true hOb2.1, hOb2.2⟩
      · rw [← hp_eq]
        show perlSplit ',' (perlJoin ',' (keepUpTo (perlSplit ',' f.ops) oi (perlSplit ',' f.ops).length)) =
          keepUpTo (perlSplit ',' f.ops) oi (perlSplit ',' f.ops).length
        exact hround oi
    · rw [if_neg hcond] at hoi_eq
      exact absurd hoi_eq (by simp)


theorem relaxed_forms_spec_witness :
    (relaxed_forms_one
        { mnem := ['F','O','O'],
          ops := ['r','g',',','r','h','*',',','i','m','*'],
          enc := ['[','r','m','i',':',' ','a','a',']'],
          flags := ['X'] }).length =
      2^((perlSplit ','
          (['r','g',',','r','h','*',',','i','m','*'] : List Char)).filter
            (endsWith '*')).length :=
  (relaxed_forms_spec
    { mnem := ['F','O','O'],
      ops := ['r','g',',','r','h','*',',','i','m','*'],
      enc := ['[','r','m','i',':',' ','a','a',']'],
      flags := ['X'] }
    (by decide) (by decide) (by decide) (by decide) (by decide) (by decide)).1


/-- C6: for every memory operand finalized by `mref_set_optype`, when
`basereg == -1` and (`indexreg == -1` or `scale == 0`), exactly one of
`MEM_OFFS` or `IP_REL` is added — `IP_REL` exactly when the mode is 64-bit,
`EAF_ABS` is unset, and either (the global REL default holds and `EAF_FSGS`
is unset) or `EAF_REL` is set; otherwise neither flag is added. -/
theorem mref_set_optype_spec (gb : Nat) (grel : Bool)
    (isX isY isZ : Int → Bool) (op : Operand)
    (h1 : op.type &&& MEM_OFFS = 0) (h2 : op.type &&& IP_REL = 0) :
    ((op.basereg = -1 ∧ (op.indexreg = -1 ∨ op.scale = 0)) →
      (((mref_set_optype gb grel isX isY isZ op).type &&& IP_REL ≠ 0 ↔
          (gb = 64 ∧ op.eaflags &&& EAF_ABS = 0 ∧
            ((grel = true ∧ op.eaflags &&& EAF_FSGS = 0) ∨
              op.eaflags &&& EAF_REL ≠ 0)))
        ∧ ((mref_set_optype gb grel isX isY isZ op).type &&& MEM_OFFS ≠ 0 ↔
          ¬(gb = 64 ∧ op.eaflags &&& EAF_ABS = 0 ∧
            ((grel = true ∧ op.eaflags &&& EAF_FSGS = 0) ∨
              op.eaflags &&& EAF_REL ≠ 0)))))
  ∧ (¬(op.basereg = -1 ∧ (op.indexreg = -1 ∨ op.scale = 0)) →
      ((mref_set_optype gb grel isX isY isZ op).type &&& MEM_OFFS = 0 ∧
        (mref_set_optype gb grel isX isY isZ op).type &&& IP_REL = 0)) := by
  simp only [mref_set_optype]
  split_ifs <;>
    simp_all [MEMORY_ANY, MEM_OFFS, IP_REL, XMEM, YMEM, ZMEM,
      lor_pow_and_pow_ne, lor_pow_and_pow_self, lor_pow_and_pow_eq_zero,
      -Nat.reducePow]

/-- Witness for `mref_set_optype_spec`: a fresh operand (no base, no
index) in 64-bit mode with the REL default gets `IP_REL` and not
`MEM_OFFS`. -/
theorem mref_set_optype_spec_witness :
    (initOperand.type &&& MEM_OFFS = 0) ∧ (initOperand.type &&& IP_REL = 0) ∧
    ((initOperand.basereg = -1 ∧
        (initOperand.indexreg = -1 ∨ initOperand.scale = 0)) →
      (((mref_set_optype 64 true (fun _ => false) (fun _ => false)
            (fun _ => false) initOperand).type &&& IP_REL ≠ 0 ↔
          (64 = 64 ∧ initOperand.eaflags &&& EAF_ABS = 0 ∧
            ((true = true ∧ initOperand.eaflags &&& EAF_FSGS = 0) ∨
              initOperand.eaflags &&& EAF_REL ≠ 0)))
        ∧ ((mref_set_optype 64 true (fun _ => false) (fun _ => false)
            (fun _ => false) initOperand).type &&& MEM_OFFS ≠ 0 ↔
          ¬(64 = 64 ∧ initOperand.eaflags &&& EAF_ABS = 0 ∧
            ((true = true ∧ initOperand.eaflags &&& EAF_FSGS = 0) ∨
              initOperand.eaflags &&& EAF_REL ≠ 0))))) := by
  refine ⟨by decide, by decide, ?_⟩
  exact (mref_set_optype_spec 64 true (fun _ => false) (fun _ => false)
    (fun _ => false) initOperand (by decide) (by decide)).1

/-- C5: for every MIB memory operand, the combination step fails with
"invalid mib expression" exactly when the second sub-expression has a base
that cannot become the sole index (base and index both present), a nonzero
offset, a segment, or a WRT, or the first sub-expression already produced
an index; on success the operand's index and scale are the second
sub-expression's sole register and coefficient (a lone base register
becoming index with scale 1), with hint `MAKEBASE` on the base if the
first sub-expression had one, else `NOTBASE` on the index. -/
theorem mib_spec (op o2 : Operand) :
    (mib_combine op o2 = none ↔
      (op.indexreg ≠ -1 ∨ (o2.basereg ≠ -1 ∧ o2.indexreg ≠ -1) ∨
        o2.offset ≠ 0 ∨ o2.segment ≠ NO_SEG ∨ o2.wrt ≠ NO_SEG))
  ∧ (∀ r, mib_combine op o2 = some r →
      ((o2.indexreg ≠ -1 → r.indexreg = o2.indexreg ∧ r.scale = o2.scale)
      ∧ (o2.indexreg = -1 ∧ o2.basereg ≠ -1 →
          r.indexreg = o2.basereg ∧ r.scale = 1)
      ∧ (op.basereg ≠ -1 →
          r.hinttype = EAH.MAKEBASE ∧ r.hintbase = op.basereg)
      ∧ (op.basereg = -1 ∧ r.indexreg ≠ -1 →
          r.hinttype = EAH.NOTBASE ∧ r.hintbase = r.indexreg)
      ∧ r.basereg = op.basereg ∧ r.offset = op.offset ∧
        r.segment = op.segment ∧ r.wrt = op.wrt)) := by
  simp only [mib_combine]
  constructor
  · split_ifs <;> simp_all <;> tauto
  · intro r
    split_ifs <;> intro hr <;>
      simp only [Option.some.injEq, reduceCtorEq] at hr <;>
      (try subst hr) <;> simp_all <;> tauto

/-- Witness for `mib_spec`'s success part: `[rbx, rcx*4]`-style input —
first sub-expression contributes base register 1, the second sole index
register 2 with coefficient 4; the result takes index 2 and scale 4. -/
theorem mib_spec_witness :
    ({ initOperand with
        basereg := 1, indexreg := 2, scale := 4,
        hintbase := 1, hinttype := EAH.MAKEBASE } : Operand).indexreg =
      ({ initOperand with indexreg := 2, scale := 4 } : Operand).indexreg
    ∧ ({ initOperand with
        basereg := 1, indexreg := 2, scale := 4,
        hintbase := 1, hinttype := EAH.MAKEBASE } : Operand).scale =
      ({ initOperand with indexreg := 2, scale := 4 } : Operand).scale := by
  have h := (mib_spec { initOperand with basereg := 1 }
      { initOperand with indexreg := 2, scale := 4 }).2
      { initOperand with
        basereg := 1, indexreg := 2, scale := 4,
        hintbase := 1, hinttype := EAH.MAKEBASE } (by decide)
  exact h.1 (by decide)

/-- Witness for `imm_flags_spec` at `optLevel = -1`, `n = 1`,
`flags = STRICT`: `UNITY` is added even though `STRICT` is present and the
optimization level is negative, and no compact-encoding flag is added. -/
theorem imm_flags_spec_witness :
    (-(2^63) ≤ (1 : Int)) ∧ ((1 : Int) < 2^63) ∧
    (immFlags (-1) 1 STRICT &&& UNITY ≠ 0 ↔
      ((1 : Int) = 1 ∨ STRICT &&& UNITY ≠ 0)) := by
  refine ⟨by norm_num, by norm_num, ?_⟩
  exact (imm_flags_spec (-1) 1 STRICT (by norm_num) (by norm_num)).1

/-! ### C1: conditional-form expansion (`%conds`, `conditional_forms`) -/

/-- Perl `uc`/`\U`: uppercase an ASCII letter. -/
def ucChar (c : Char) : Char :=
  if 'a' ≤ c ∧ c ≤ 'z' then Char.ofNat (c.toNat - 32) else c

/-- One insns.dat field set `[mnemonic, operands, encoding, flags]`. -/
structure CForm where
  mnem  : List Char
  ops   : List Char
  enc   : List Char
  flags : List Char
deriving DecidableEq, Repr

/-- `$c_ccmask = 0x0f`. -/
def c_ccmask : Nat := 15
/-- `$c_nd = 0x10` (not for the disassembler). -/
def c_nd : Nat := 16
/-- `$c_cc = 0x20` (cc only, not scc). -/
def c_cc : Nat := 32
/-- `$c_scc = 0x40` (scc only, not cc). -/
def c_scc : Nat := 64

/-- The 32-entry `%conds` table, traversed in `sort keys` (ASCII) order
as `@conds` is. -/
def conds : List (List Char × Nat) :=
  [(['a'], 7), (['a','e'], 19), (['b'], 18), (['b','e'], 22), (['c'], 2),
   (['e'], 20), (['f'], 74), (['g'], 15), (['g','e'], 29), (['l'], 12),
   (['l','e'], 30), (['n','a'], 6), (['n','a','e'], 18), (['n','b'], 19),
   (['n','b','e'], 23), (['n','c'], 3), (['n','e'], 21), (['n','g'], 14),
   (['n','g','e'], 28), (['n','l'], 13), (['n','l','e'], 31), (['n','o'], 1),
   (['n','p'], 59), (['n','s'], 9), (['n','z'], 5), (['o'], 0),
   (['p'], 58), (['p','e'], 42), (['p','o'], 43), (['s'], 8),
   (['t'], 75), (['z'], 4)]

/-- `/s?cc/` as a match test: the mnemonic contains `cc`. -/
def hasCC : List Char → Bool
  | 'c' :: 'c' :: _ => true
  | _ :: rest => hasCC rest
  | [] => false

/-- `/scc/`: the mnemonic contains `scc`. -/
def hasSCC : List Char → Bool
  | 's' :: 'c' :: 'c' :: _ => true
  | _ :: rest => hasSCC rest
  | [] => false

/-- `s/s?cc/\U$cc/`: replace the leftmost `s?cc` match (preferring the
`scc` form at a given position) by the uppercased condition key. -/
def substCC (rep : List Char) : List Char → List Char
  | 's' :: 'c' :: 'c' :: rest => rep ++ rest
  | 'c' :: 'c' :: rest => rep ++ rest
  | c :: rest => c :: substCC rep rest
  | [] => []

/-- The character class `[0-9a-f]`. -/
def isHexLower (c : Char) : Bool :=
  ('0' ≤ c && c ≤ '9') || ('a' ≤ c && c ≤ 'f')

/-- Value of one `[0-9a-f]` digit (Perl `hex`). -/
def hexValDigit (c : Char) : Nat :=
  if c.toNat ≤ '9'.toNat then c.toNat - '0'.toNat else c.toNat - 'a'.toNat + 10

/-- Lowercase hexadecimal digit. -/
def hexDigitL (n : Nat) : Char :=
  if n < 10 then Char.ofNat ('0'.toNat + n) else Char.ofNat ('a'.toNat + (n - 10))

/-- `sprintf('%02x', n)` for `n < 256`. -/
def hex2l (n : Nat) : List Char := [hexDigitL (n / 16 % 16), hexDigitL (n % 16)]

/-- `sprintf('%d', n)` for `n < 16`. -/
def decNib (n : Nat) : List Char :=
  if n < 10 then [hexDigitL n] else ['1', hexDigitL (n - 10)]

/-- Whether `\b([0-9a-f]{2})\+c\b` matches at the current position
(`prev` is the preceding character); yields the byte value and the tail. -/
def hexCAt (prev : Char) : List Char → Option (Nat × List Char)
  | h1 :: h2 :: '+' :: 'c' :: rest2 =>
    if !isWordChar prev && isHexLower h1 && isHexLower h2
        && !rest2.isEmpty && !isWordChar (rest2.headD ' ') then
      some (hexValDigit h1 * 16 + hexValDigit h2, rest2)
    else none
  | _ => none

/-- Leftmost match of `\b([0-9a-f]{2})\+c\b`, as the lazy `(\[.*?)` group
finds it: returns (chars before the match, byte value, tail after `+c`). -/
def findHexC : Char → List Char → Option (List Char × Nat × List Char)
  | _, [] => none
  | prev, c :: rest =>
    match hexCAt prev (c :: rest) with
    | some (v, post) => some ([], v, post)
    | none =>
      match findHexC c rest with
      | some (pre, v, post) => some (c :: pre, v, post)
      | none => none

/-- Whether `\.scc\b` matches at the current position. -/
def sccAt : List Char → Option (List Char)
  | '.' :: 's' :: 'c' :: 'c' :: rest2 =>
    if !isWordChar (rest2.headD ' ') then some rest2 else none
  | _ => none

/-- Leftmost match of `\.scc\b`: returns (chars through `.scc`, tail). -/
def findScc : List Char → Option (List Char × List Char)
  | [] => none
  | c :: rest =>
    match sccAt (c :: rest) with
    | some rest2 => some (['.', 's', 'c', 'c'], rest2)
    | none =>
      match findScc rest with
      | some (pre, post) => some (c :: pre, post)
      | none => none

/-- The per-condition encoding substitution: on `^(\[.*?)\b([0-9a-f]{2})\+c\b(.*\])$`
the byte is XORed with the condition nibble (`sprintf %02x`); otherwise on
`^(\[.*?\.scc\b)(.*\])$` the nibble is inserted in decimal after `.scc`;
otherwise `none` (the "invalid conditional encoding" warning path). -/
def substEncCC (nib : Nat) (enc : List Char) : Option (List Char) :=
  match enc with
  | '[' :: rest =>
    if enc.getLastD ' ' = ']' then
      match findHexC '[' rest with
      | some (pre, v, post) =>
        some ('[' :: (pre ++ hex2l (Nat.xor v nib) ++ post))
      | none =>
        match findScc rest with
        | some (pre, post) => some ('[' :: (pre ++ decNib nib ++ post))
        | none => none
    else none
  | _ => none

/-- `/\bND\b/` on the flags field (`prev` is the preceding character;
start with a non-word character). -/
def hasWordND : Char → List Char → Bool
  | prev, 'N' :: 'D' :: rest =>
    if !isWordChar prev && !isWordChar (rest.headD ' ') then true
    else hasWordND 'N' ('D' :: rest)
  | _, c :: rest => hasWordND c rest
  | _, [] => false

/-- The body of the `foreach my $cc (@conds)` loop for one condition key:
`none` when the key is excluded by the mask or the encoding substitution
fails (`next`), otherwise the derived field set, appending `,ND` to the
flags when the key is an alias (`$c_nd`) and `\bND\b` is not already
present. -/
def cond_subst (p : CForm) (kv : List Char × Nat) : Option CForm :=
  if kv.2 &&& (if hasSCC p.mnem then c_cc else c_scc) ≠ 0 then none
  else
    match substEncCC (kv.2 &&& c_ccmask) p.enc with
    | none => none
    | some e2 =>
      some { mnem := substCC (kv.1.map ucChar) p.mnem,
             ops := p.ops, enc := e2,
             flags := if kv.2 &&& c_nd ≠ 0 ∧ ¬(hasWordND ' ' p.flags = true)
                      then p.flags ++ [',', 'N', 'D'] else p.flags }

/-- `conditional_forms` on a single pattern: unchanged when the mnemonic
has no `cc`; dropped (with a warning) when a conditional pattern uses raw
bytecodes; otherwise one derived pattern per non-excluded `%conds` key. -/
def conditional_forms_one (p : CForm) : List CForm :=
  if ¬(hasCC p.mnem = true) then [p]
  else if ¬(p.enc.headD ' ' = '[') then []
  else conds.filterMap (cond_subst p)

theorem length_filterMap_eq_length_filter {α β : Type} (F : α → Option β)
    (g : α → Bool) :
    ∀ (l : List α), (∀ x ∈ l, (F x).isSome = g x) →
      (l.filterMap F).length = (l.filter g).length := by
  intro l
  induction l with
  | nil =>
    intro _
    rfl
  | cons a t ih =>
    intro h
    have ha := h a (List.mem_cons_self a t)
    have ht := ih (fun x hx => h x (List.mem_cons_of_mem a hx))
    rw [List.filter_cons]
    cases hF : F a with
    | none =>
      rw [hF] at ha
      simp only [Option.isSome_none] at ha
      rw [List.filterMap_cons_none hF, ← ha]
      simp [ht]
    | some b =>
      rw [hF] at ha
      simp only [Option.isSome_some] at ha
      rw [List.filterMap_cons_some hF, ← ha]
      simp [ht]

/-- C1: for every pattern whose mnemonic contains `cc` and whose bracketed
DSL encoding accepts the condition substitution for every nibble,
conditional-form expansion produces exactly 30 derived patterns when the
mnemonic does not contain `scc` (the 32-entry alias-inclusive `%conds`
table minus the two scc-only codes `f`, `t`) and exactly 28 when it does
(minus the four cc-only codes `pe`, `po`, `np`, `p`) — not 16 and 14 as
the claim states, since the table enumerates every alias of each 4-bit
condition value. -/
theorem conditional_forms_spec (p : CForm)
    (hcc : hasCC p.mnem = true)
    (hbr : p.enc.headD ' ' = '[')
    (hsub : ∀ v, v < 16 → (substEncCC v p.enc).isSome = true) :
    (conditional_forms_one p).length = if hasSCC p.mnem then 28 else 30 := by
  unfold conditional_forms_one
  rw [if_neg (fun hc => hc hcc), if_neg (fun hc => hc hbr)]
  have hiso : ∀ kv ∈ conds, ((cond_subst p) kv).isSome =
      decide (kv.2 &&& (if hasSCC p.mnem then c_cc else c_scc) = 0) := by
    intro kv _
    unfold cond_subst
    by_cases hg : kv.2 &&& (if hasSCC p.mnem then c_cc else c_scc) ≠ 0
    · rw [if_pos hg]
      simp [hg]
    · rw [if_neg hg]
      have hv : kv.2 &&& c_ccmask < 16 :=
        lt_of_le_of_lt Nat.and_le_right (by norm_num [c_ccmask])
      obtain ⟨e, he⟩ := Option.isSome_iff_exists.mp (hsub _ hv)
      rw [he]
      simp [not_not.mp hg]
  rw [length_filterMap_eq_length_filter _ _ conds hiso]
  cases hs : hasSCC p.mnem with
  | true =>
    rw [if_pos rfl]
    decide
  | false =>
    rw [if_neg (by simp)]
    decide

/-- The expansion of a concrete `Jcc` pattern (30 forms) and a concrete
EVEX `SETscc` pattern (28 forms), listed in full: each condition nibble is
XORed into the `70+c` opcode byte, resp. appended in decimal after
`.scc`, and `,ND` is appended to the flags exactly for the alias keys
when `ND` is not already present. -/
theorem conditional_forms_spec_witness :
    ((conditional_forms_one { mnem := ['J', 'c', 'c'], ops := ['i', 'm', 'm'], enc := ['[', 'i', ':', ' ', '7', '0', '+', 'c', ' ', 'r', 'e', 'l', '8', ']'], flags := ['S', 'M'] }).length =
      if hasSCC ({ mnem := ['J', 'c', 'c'], ops := ['i', 'm', 'm'], enc := ['[', 'i', ':', ' ', '7', '0', '+', 'c', ' ', 'r', 'e', 'l', '8', ']'], flags := ['S', 'M'] } : CForm).mnem then 28 else 30) ∧
    conditional_forms_one { mnem := ['J', 'c', 'c'], ops := ['i', 'm', 'm'], enc := ['[', 'i', ':', ' ', '7', '0', '+', 'c', ' ', 'r', 'e', 'l', '8', ']'], flags := ['S', 'M'] } =
      [{ mnem := ['J', 'A'], ops := ['i', 'm', 'm'], enc := ['[', 'i', ':', ' ', '7', '7', ' ', 'r', 'e', 'l', '8', ']'], flags := ['S', 'M'] },
       { mnem := ['J', 'A', 'E'], ops := ['i', 'm', 'm'], enc := ['[', 'i', ':', ' ', '7', '3', ' ', 'r', 'e', 'l', '8', ']'], flags := ['S', 'M', ',', 'N', 'D'] },
       { mnem := ['J', 'B'], ops := ['i', 'm', 'm'], enc := ['[', 'i', ':', ' ', '7', '2', ' ', 'r', 'e', 'l', '8', ']'], flags := ['S', 'M', ',', 'N', 'D'] },
       { mnem := ['J', 'B', 'E'], ops := ['i', 'm', 'm'], enc := ['[', 'i', ':', ' ', '7', '6', ' ', 'r', 'e', 'l', '8', ']'], flags := ['S', 'M', ',', 'N', 'D'] },
       { mnem := ['J', 'C'], ops := ['i', 'm', 'm'], enc := ['[', 'i', ':', ' ', '7', '2', ' ', 'r', 'e', 'l', '8', ']'], flags := ['S', 'M'] },
       { mnem := ['J', 'E'], ops := ['i', 'm', 'm'], enc := ['[', 'i', ':', ' ', '7', '4', ' ', 'r', 'e', 'l', '8', ']'], flags := ['S', 'M', ',', 'N', 'D'] },
       { mnem := ['J', 'G'], ops := ['i', 'm', 'm'], enc := ['[', 'i', ':', ' ', '7', 'f', ' ', 'r', 'e', 'l', '8', ']'], flags := ['S', 'M'] },
       { mnem := ['J', 'G', 'E'], ops := ['i', 'm', 'm'], enc := ['[', 'i', ':', ' ', '7', 'd', ' ', 'r', 'e', 'l', '8', ']'], flags := ['S', 'M', ',', 'N', 'D'] },
       { mnem := ['J', 'L'], ops := ['i', 'm', 'm'], enc := ['[', 'i', ':', ' ', '7', 'c', ' ', 'r', 'e', 'l', '8', ']'], flags := ['S', 'M'] },
       { mnem := ['J', 'L', 'E'], ops := ['i', 'm', 'm'], enc := ['[', 'i', ':', ' ', '7', 'e', ' ', 'r', 'e', 'l', '8', ']'], flags := ['S', 'M', ',', 'N', 'D'] },
       { mnem := ['J', 'N', 'A'], ops := ['i', 'm', 'm'], enc := ['[', 'i', ':', ' ', '7', '6', ' ', 'r', 'e', 'l', '8', ']'], flags := ['S', 'M'] },
       { mnem := ['J', 'N', 'A', 'E'], ops := ['i', 'm', 'm'], enc := ['[', 'i', ':', ' ', '7', '2', ' ', 'r', 'e', 'l', '8', ']'], flags := ['S', 'M', ',', 'N', 'D'] },
       { mnem := ['J', 'N', 'B'], ops := ['i', 'm', 'm'], enc := ['[', 'i', ':', ' ', '7', '3', ' ', 'r', 'e', 'l', '8', ']'], flags := ['S', 'M', ',', 'N', 'D'] },
       { mnem := ['J', 'N', 'B', 'E'], ops := ['i', 'm', 'm'], enc := ['[', 'i', ':', ' ', '7', '7', ' ', 'r', 'e', 'l', '8', ']'], flags := ['S', 'M', ',', 'N', 'D'] },
       { mnem := ['J', 'N', 'C'], ops := ['i', 'm', 'm'], enc := ['[', 'i', ':', ' ', '7', '3', ' ', 'r', 'e', 'l', '8', ']'], flags := ['S', 'M'] },
       { mnem := ['J', 'N', 'E'], ops := ['i', 'm', 'm'], enc := ['[', 'i', ':', ' ', '7', '5', ' ', 'r', 'e', 'l', '8', ']'], flags := ['S', 'M', ',', 'N', 'D'] },
       { mnem := ['J', 'N', 'G'], ops := ['i', 'm', 'm'], enc := ['[', 'i', ':', ' ', '7', 'e', ' ', 'r', 'e', 'l', '8', ']'], flags := ['S', 'M'] },
       { mnem := ['J', 'N', 'G', 'E'], ops := ['i', 'm', 'm'], enc := ['[', 'i', ':', ' ', '7', 'c', ' ', 'r', 'e', 'l', '8', ']'], flags := ['S', 'M', ',', 'N', 'D'] },
       { mnem := ['J', 'N', 'L'], ops := ['i', 'm', 'm'], enc := ['[', 'i', ':', ' ', '7', 'd', ' ', 'r', 'e', 'l', '8', ']'], flags := ['S', 'M'] },
       { mnem := ['J', 'N', 'L', 'E'], ops := ['i', 'm', 'm'], enc := ['[', 'i', ':', ' ', '7', 'f', ' ', 'r', 'e', 'l', '8', ']'], flags := ['S', 'M', ',', 'N', 'D'] },
       { mnem := ['J', 'N', 'O'], ops := ['i', 'm', 'm'], enc := ['[', 'i', ':', ' ', '7', '1', ' ', 'r', 'e', 'l', '8', ']'], flags := ['S', 'M'] },
       { mnem := ['J', 'N', 'P'], ops := ['i', 'm', 'm'], enc := ['[', 'i', ':', ' ', '7', 'b', ' ', 'r', 'e', 'l', '8', ']'], flags := ['S', 'M', ',', 'N', 'D'] },
       { mnem := ['J', 'N', 'S'], ops := ['i', 'm', 'm'], enc := ['[', 'i', ':', ' ', '7', '9', ' ', 'r', 'e', 'l', '8', ']'], flags := ['S', 'M'] },
       { mnem := ['J', 'N', 'Z'], ops := ['i', 'm', 'm'], enc := ['[', 'i', ':', ' ', '7', '5', ' ', 'r', 'e', 'l', '8', ']'], flags := ['S', 'M'] },
       { mnem := ['J', 'O'], ops := ['i', 'm', 'm'], enc := ['[', 'i', ':', ' ', '7', '0', ' ', 'r', 'e', 'l', '8', ']'], flags := ['S', 'M'] },
       { mnem := ['J', 'P'], ops := ['i', 'm', 'm'], enc := ['[', 'i', ':', ' ', '7', 'a', ' ', 'r', 'e', 'l', '8', ']'], flags := ['S', 'M', ',', 'N', 'D'] },
       { mnem := ['J', 'P', 'E'], ops := ['i', 'm', 'm'], enc := ['[', 'i', ':', ' ', '7', 'a', ' ', 'r', 'e', 'l', '8', ']'], flags := ['S', 'M'] },
       { mnem := ['J', 'P', 'O'], ops := ['i', 'm', 'm'], enc := ['[', 'i', ':', ' ', '7', 'b', ' ', 'r', 'e', 'l', '8', ']'], flags := ['S', 'M'] },
       { mnem := ['J', 'S'], ops := ['i', 'm', 'm'], enc := ['[', 'i', ':', ' ', '7', '8', ' ', 'r', 'e', 'l', '8', ']'], flags := ['S', 'M'] },
       { mnem := ['J', 'Z'], ops := ['i', 'm', 'm'], enc := ['[', 'i', ':', ' ', '7', '4', ' ', 'r', 'e', 'l', '8', ']'], flags := ['S', 'M'] }] ∧
    conditional_forms_one { mnem := ['S', 'E', 'T', 's', 'c', 'c'], ops := ['m', 'e', 'm'], enc := ['[', 'm', ':', ' ', 'e', 'v', 'e', 'x', '.', 's', 'c', 'c', ' ', 'o', '6', '4', ' ', 'f', '2', ']'], flags := ['S', 'M', ',', 'N', 'D'] } =
      [{ mnem := ['S', 'E', 'T', 'A'], ops := ['m', 'e', 'm'], enc := ['[', 'm', ':', ' ', 'e', 'v', 'e', 'x', '.', 's', 'c', 'c', '7', ' ', 'o', '6', '4', ' ', 'f', '2', ']'], flags := ['S', 'M', ',', 'N', 'D'] },
       { mnem := ['S', 'E', 'T', 'A', 'E'], ops := ['m', 'e', 'm'], enc := ['[', 'm', ':', ' ', 'e', 'v', 'e', 'x', '.', 's', 'c', 'c', '3', ' ', 'o', '6', '4', ' ', 'f', '2', ']'], flags := ['S', 'M', ',', 'N', 'D'] },
       { mnem := ['S', 'E', 'T', 'B'], ops := ['m', 'e', 'm'], enc := ['[', 'm', ':', ' ', 'e', 'v', 'e', 'x', '.', 's', 'c', 'c', '2', ' ', 'o', '6', '4', ' ', 'f', '2', ']'], flags := ['S', 'M', ',', 'N', 'D'] },
       { mnem := ['S', 'E', 'T', 'B', 'E'], ops := ['m', 'e', 'm'], enc := ['[', 'm', ':', ' ', 'e', 'v', 'e', 'x', '.', 's', 'c', 'c', '6', ' ', 'o', '6', '4', ' ', 'f', '2', ']'], flags := ['S', 'M', ',', 'N', 'D'] },
       { mnem := ['S', 'E', 'T', 'C'], ops := ['m', 'e', 'm'], enc := ['[', 'm', ':', ' ', 'e', 'v', 'e', 'x', '.', 's', 'c', 'c', '2', ' ', 'o', '6', '4', ' ', 'f', '2', ']'], flags := ['S', 'M', ',', 'N', 'D'] },
       { mnem := ['S', 'E', 'T', 'E'], ops := ['m', 'e', 'm'], enc := ['[', 'm', ':', ' ', 'e', 'v', 'e', 'x', '.', 's', 'c', 'c', '4', ' ', 'o', '6', '4', ' ', 'f', '2', ']'], flags := ['S', 'M', ',', 'N', 'D'] },
       { mnem := ['S', 'E', 'T', 'F'], ops := ['m', 'e', 'm'], enc := ['[', 'm', ':', ' ', 'e', 'v', 'e', 'x', '.', 's', 'c', 'c', '1', '0', ' ', 'o', '6', '4', ' ', 'f', '2', ']'], flags := ['S', 'M', ',', 'N', 'D'] },
       { mnem := ['S', 'E', 'T', 'G'], ops := ['m', 'e', 'm'], enc := ['[', 'm', ':', ' ', 'e', 'v', 'e', 'x', '.', 's', 'c', 'c', '1', '5', ' ', 'o', '6', '4', ' ', 'f', '2', ']'], flags := ['S', 'M', ',', 'N', 'D'] },
       { mnem := ['S', 'E', 'T', 'G', 'E'], ops := ['m', 'e', 'm'], enc := ['[', 'm', ':', ' ', 'e', 'v', 'e', 'x', '.', 's', 'c', 'c', '1', '3', ' ', 'o', '6', '4', ' ', 'f', '2', ']'], flags := ['S', 'M', ',', 'N', 'D'] },
       { mnem := ['S', 'E', 'T', 'L'], ops := ['m', 'e', 'm'], enc := ['[', 'm', ':', ' ', 'e', 'v', 'e', 'x', '.', 's', 'c', 'c', '1', '2', ' ', 'o', '6', '4', ' ', 'f', '2', ']'], flags := ['S', 'M', ',', 'N', 'D'] },
       { mnem := ['S', 'E', 'T', 'L', 'E'], ops := ['m', 'e', 'm'], enc := ['[', 'm', ':', ' ', 'e', 'v', 'e', 'x', '.', 's', 'c', 'c', '1', '4', ' ', 'o', '6', '4', ' ', 'f', '2', ']'], flags := ['S', 'M', ',', 'N', 'D'] },
       { mnem := ['S', 'E', 'T', 'N', 'A'], ops := ['m', 'e', 'm'], enc := ['[', 'm', ':', ' ', 'e', 'v', 'e', 'x', '.', 's', 'c', 'c', '6', ' ', 'o', '6', '4', ' ', 'f', '2', ']'], flags := ['S', 'M', ',', 'N', 'D'] },
       { mnem := ['S', 'E', 'T', 'N', 'A', 'E'], ops := ['m', 'e', 'm'], enc := ['[', 'm', ':', ' ', 'e', 'v', 'e', 'x', '.', 's', 'c', 'c', '2', ' ', 'o', '6', '4', ' ', 'f', '2', ']'], flags := ['S', 'M', ',', 'N', 'D'] },
       { mnem := ['S', 'E', 'T', 'N', 'B'], ops := ['m', 'e', 'm'], enc := ['[', 'm', ':', ' ', 'e', 'v', 'e', 'x', '.', 's', 'c', 'c', '3', ' ', 'o', '6', '4', ' ', 'f', '2', ']'], flags := ['S', 'M', ',', 'N', 'D'] },
       { mnem := ['S', 'E', 'T', 'N', 'B', 'E'], ops := ['m', 'e', 'm'], enc := ['[', 'm', ':', ' ', 'e', 'v', 'e', 'x', '.', 's', 'c', 'c', '7', ' ', 'o', '6', '4', ' ', 'f', '2', ']'], flags := ['S', 'M', ',', 'N', 'D'] },
       { mnem := ['S', 'E', 'T', 'N', 'C'], ops := ['m', 'e', 'm'], enc := ['[', 'm', ':', ' ', 'e', 'v', 'e', 'x', '.', 's', 'c', 'c', '3', ' ', 'o', '6', '4', ' ', 'f', '2', ']'], flags := ['S', 'M', ',', 'N', 'D'] },
       { mnem := ['S', 'E', 'T', 'N', 'E'], ops := ['m', 'e', 'm'], enc := ['[', 'm', ':', ' ', 'e', 'v', 'e', 'x', '.', 's', 'c', 'c', '5', ' ', 'o', '6', '4', ' ', 'f', '2', ']'], flags := ['S', 'M', ',', 'N', 'D'] },
       { mnem := ['S', 'E', 'T', 'N', 'G'], ops := ['m', 'e', 'm'], enc := ['[', 'm', ':', ' ', 'e', 'v', 'e', 'x', '.', 's', 'c', 'c', '1', '4', ' ', 'o', '6', '4', ' ', 'f', '2', ']'], flags := ['S', 'M', ',', 'N', 'D'] },
       { mnem := ['S', 'E', 'T', 'N', 'G', 'E'], ops := ['m', 'e', 'm'], enc := ['[', 'm', ':', ' ', 'e', 'v', 'e', 'x', '.', 's', 'c', 'c', '1', '2', ' ', 'o', '6', '4', ' ', 'f', '2', ']'], flags := ['S', 'M', ',', 'N', 'D'] },
       { mnem := ['S', 'E', 'T', 'N', 'L'], ops := ['m', 'e', 'm'], enc := ['[', 'm', ':', ' ', 'e', 'v', 'e', 'x', '.', 's', 'c', 'c', '1', '3', ' ', 'o', '6', '4', ' ', 'f', '2', ']'], flags := ['S', 'M', ',', 'N', 'D'] },
       { mnem := ['S', 'E', 'T', 'N', 'L', 'E'], ops := ['m', 'e', 'm'], enc := ['[', 'm', ':', ' ', 'e', 'v', 'e', 'x', '.', 's', 'c', 'c', '1', '5', ' ', 'o', '6', '4', ' ', 'f', '2', ']'], flags := ['S', 'M', ',', 'N', 'D'] },
       { mnem := ['S', 'E', 'T', 'N', 'O'], ops := ['m', 'e', 'm'], enc := ['[', 'm', ':', ' ', 'e', 'v', 'e', 'x', '.', 's', 'c', 'c', '1', ' ', 'o', '6', '4', ' ', 'f', '2', ']'], flags := ['S', 'M', ',', 'N', 'D'] },
       { mnem := ['S', 'E', 'T', 'N', 'S'], ops := ['m', 'e', 'm'], enc := ['[', 'm', ':', ' ', 'e', 'v', 'e', 'x', '.', 's', 'c', 'c', '9', ' ', 'o', '6', '4', ' ', 'f', '2', ']'], flags := ['S', 'M', ',', 'N', 'D'] },
       { mnem := ['S', 'E', 'T', 'N', 'Z'], ops := ['m', 'e', 'm'], enc := ['[', 'm', ':', ' ', 'e', 'v', 'e', 'x', '.', 's', 'c', 'c', '5', ' ', 'o', '6', '4', ' ', 'f', '2', ']'], flags := ['S', 'M', ',', 'N', 'D'] },
       { mnem := ['S', 'E', 'T', 'O'], ops := ['m', 'e', 'm'], enc := ['[', 'm', ':', ' ', 'e', 'v', 'e', 'x', '.', 's', 'c', 'c', '0', ' ', 'o', '6', '4', ' ', 'f', '2', ']'], flags := ['S', 'M', ',', 'N', 'D'] },
       { mnem := ['S', 'E', 'T', 'S'], ops := ['m', 'e', 'm'], enc := ['[', 'm', ':', ' ', 'e', 'v', 'e', 'x', '.', 's', 'c', 'c', '8', ' ', 'o', '6', '4', ' ', 'f', '2', ']'], flags := ['S', 'M', ',', 'N', 'D'] },
       { mnem := ['S', 'E', 'T', 'T'], ops := ['m', 'e', 'm'], enc := ['[', 'm', ':', ' ', 'e', 'v', 'e', 'x', '.', 's', 'c', 'c', '1', '1', ' ', 'o', '6', '4', ' ', 'f', '2', ']'], flags := ['S', 'M', ',', 'N', 'D'] },
       { mnem := ['S', 'E', 'T', 'Z'], ops := ['m', 'e', 'm'], enc := ['[', 'm', ':', ' ', 'e', 'v', 'e', 'x', '.', 's', 'c', 'c', '4', ' ', 'o', '6', '4', ' ', 'f', '2', ']'], flags := ['S', 'M', ',', 'N', 'D'] }] :=
  ⟨conditional_forms_spec { mnem := ['J', 'c', 'c'], ops := ['i', 'm', 'm'], enc := ['[', 'i', ':', ' ', '7', '0', '+', 'c', ' ', 'r', 'e', 'l', '8', ']'], flags := ['S', 'M'] }
    (by decide) (by decide) (by decide),
   by decide, by decide⟩

/-- The claimed counts are wrong: the same two concrete patterns expand
to 30 and 28 conditional forms, not 16 and 14. -/
theorem conditional_forms_count_counterexample :
    (conditional_forms_one { mnem := ['J', 'c', 'c'], ops := ['i', 'm', 'm'], enc := ['[', 'i', ':', ' ', '7', '0', '+', 'c', ' ', 'r', 'e', 'l', '8', ']'], flags := ['S', 'M'] }).length = 30 ∧
    (conditional_forms_one { mnem := ['S', 'E', 'T', 's', 'c', 'c'], ops := ['m', 'e', 'm'], enc := ['[', 'm', ':', ' ', 'e', 'v', 'e', 'x', '.', 's', 'c', 'c', ' ', 'o', '6', '4', ' ', 'f', '2', ']'], flags := ['S', 'M', ',', 'N', 'D'] }).length = 28 := by
  decide

end Nasm
